import Mathlib

/-!
Verification of the gtsam elimination / clique-tree core.

This file gives a shallow embedding, over exact rationals, of the numeric
elimination kernel (`src/cpp/Vector.cpp`, `src/cpp/Matrix.cpp`), the careful
Cholesky routine (`src/gtsam/base/cholesky.cpp`), and the Bayes-tree
insertion / removal algorithms (`src/gtsam/inference/BayesTree-inl.h`),
and proves or refutes the specification claims about them.

Machine doubles are modelled as `ℚ` (exact arithmetic); the IEEE value `+inf`
returned by `weightedPseudoinverse` for hard constraints is modelled as the
`none` case of an `Option ℚ` precision.  Calls to the C library `sqrt` are
modelled by an explicit function parameter `sqrtFn : ℚ → ℚ`, since none of the
verified properties depend on the numerical value of a square root.
-/

namespace Gtsam

/-- `1e-9`, the constraint / negligibility threshold used in `Vector.cpp`. -/
def tol9 : ℚ := 1 / 1000000000

/-- `1e-8`, the zero-precision threshold used in `weighted_eliminate`
(`Matrix.cpp`). -/
def tol8 : ℚ := 1 / 100000000

/-- A dense vector (`Vector` in `Vector.cpp`), as a list of rationals. -/
abbrev Vec := List ℚ

/-- A dense row-major matrix (`Matrix` in `Matrix.cpp`). -/
abbrev Mat := List Vec

/-- `A.size2()`: the column count of a row-major matrix. -/
def size2 (A : Mat) : ℕ := (A.headD []).length

/-- `A(i,j)`: matrix entry access with zero default. -/
def entry (A : Mat) (i j : ℕ) : ℚ := (A.getD i []).getD j 0

/-- `delta(n,i,value)` from `Vector.cpp`: a zero vector of size `n` whose
`i`-th entry is `value`. -/
def delta (n i : ℕ) (value : ℚ) : Vec :=
  (List.range n).map (fun k => if k = i then value else 0)

/-- Modelled from the spec: `basis(n,j)` is declared in the missing
`Matrix.h`/`Vector.h`; per its use in `weighted_eliminate` it is the `j`-th
unit vector of size `n` (`delta(n,j,1.0)`). -/
def basis (n j : ℕ) : Vec := delta n j 1

/-- `emul(a,b)` from `Vector.cpp`: elementwise product. -/
def emul (a b : Vec) : Vec := List.zipWith (· * ·) a b

/-- Modelled from the spec: `reciprocal(v)` is declared in the missing
`Vector.h`; per its use computing `1/sigma²` weights it is the elementwise
reciprocal. -/
def reciprocal (v : Vec) : Vec := v.map (fun x => 1 / x)

/-- `inner_prod(x,y)`: dot product of two vectors. -/
def dotQ (x y : Vec) : ℚ := ((List.zipWith (· * ·) x y)).sum

/-- The first-row scan of the fast `weightedPseudoinverse`
(`Vector.cpp:236-240`): index of the first row with
`sigmas[i] < 1e-9 && fabs(a[i]) > 1e-9` (a valid hard constraint). -/
def wpiConstraintIdx (a sigmas : Vec) : Option ℕ :=
  (List.range sigmas.length).find?
    (fun i => decide (sigmas.getD i 0 < tol9) && decide (tol9 < |a.getD i 0|))

/-- The per-row precisions computed by the second loop of the fast
`weightedPseudoinverse` (`Vector.cpp:247-256`): zero for a negligible row
(`fabs(a[i]) < 1e-9`), else `1/sigma[i]²`. -/
def wpiPrecisions (a sigmas : Vec) : Vec :=
  (List.range sigmas.length).map
    (fun i => if |a.getD i 0| < tol9 then 0
              else 1 / (sigmas.getD i 0 * sigmas.getD i 0))

/-- The accumulated column precision `a'inv(Sigma)a` of the fast
`weightedPseudoinverse`: sum of `a[i]² / sigma[i]²` over non-negligible rows. -/
def wpiPrecision (a sigmas : Vec) : ℚ :=
  (List.range sigmas.length).foldl
    (fun acc i =>
      if |a.getD i 0| < tol9 then acc
      else acc + a.getD i 0 * a.getD i 0 * (1 / (sigmas.getD i 0 * sigmas.getD i 0)))
    0

/-- The fast `weightedPseudoinverse(a, sigmas, pseudo)` of `Vector.cpp:232-267`,
returning the pseudo-inverse vector together with the precision; the returned
precision `none` encodes the IEEE `+inf` of the hard-constraint short circuit. -/
def weightedPseudoinverse (a sigmas : Vec) : Vec × Option ℚ :=
  match wpiConstraintIdx a sigmas with
  | some i => (delta sigmas.length i (1 / a.getD i 0), none)
  | none =>
    let m := sigmas.length
    let precision := wpiPrecision a sigmas
    if precision < tol9 then
      ((List.range m).map (fun _ => 0), some precision)
    else
      ((List.range m).map
        (fun i => 1 / precision * (wpiPrecisions a sigmas).getD i 0 * a.getD i 0),
       some precision)

/-- Records whether any division executed by the fast `weightedPseudoinverse`
has a zero denominator: `1/a[i]` on the hard-constraint branch,
`1./(si*si)` for a non-negligible row, or `1.0/precision` when the
accumulated precision is not below `1e-9`. -/
def wpiDividesByZero (a sigmas : Vec) : Bool :=
  match wpiConstraintIdx a sigmas with
  | some i => a.getD i 0 == 0
  | none =>
    ((List.range sigmas.length).any
      (fun i => !(decide (|a.getD i 0| < tol9))
        && (sigmas.getD i 0 * sigmas.getD i 0 == 0)))
    || (!(decide (wpiPrecision a sigmas < tol9)) && (wpiPrecision a sigmas == 0))

/-- `column_(A, j)` from `Matrix.cpp`: extract column `j`. -/
def column_ (A : Mat) (j : ℕ) : Vec := A.map (fun row => row.getD j 0)

/-- Comparison of an optional precision (`none` = `+inf`) against a threshold,
as the IEEE comparison `precision < t` behaves in `weighted_eliminate`. -/
def precBelow : Option ℚ → ℚ → Bool
  | none, _ => false
  | some p, t => decide (p < t)

/-- The stored sigma `1./sqrt(precision)` of a produced tuple; for the
infinite precision of a hard constraint the IEEE value is `1/inf = 0`. -/
def invSqrt (sqrtFn : ℚ → ℚ) : Option ℚ → ℚ
  | none => 0
  | some p => 1 / sqrtFn p

/-- `updateAb(A, b, j, a, r, d)` from `Matrix.cpp:333-380`:
`b(i) -= a(i)*d` and `A(i,j2) -= a(i)*r(j2)` for `j2 > j`, on every row `i`. -/
def updateAb (A : Mat) (b : Vec) (j : ℕ) (a r : Vec) (d : ℚ) : Mat × Vec :=
  (A.mapIdx (fun i row =>
      row.mapIdx (fun j2 x => if j < j2 then x - a.getD i 0 * r.getD j2 0 else x)),
   b.mapIdx (fun i x => x - a.getD i 0 * d))

/-- The conditional row `r` produced for column `j` in `weighted_eliminate`:
`basis(n,j)` with entries `j2 > j` overwritten by
`inner_prod(pseudo, column(A,j2))`. -/
def weRow (A : Mat) (n j : ℕ) (pseudo : Vec) : Vec :=
  (List.range n).map
    (fun j2 => if j2 = j then 1
               else if j < j2 then dotQ pseudo (column_ A j2) else 0)

/-- The column loop of `weighted_eliminate` (`Matrix.cpp:398-429`),
instrumented with the eliminated column index of each produced tuple.
`continue` on a near-zero precision skips the column; after a produced tuple
reaches `maxRank` the loop breaks before updating `A` and `b`. -/
def weGo (sqrtFn : ℚ → ℚ) (weights : Vec) (n maxRank : ℕ) :
    List ℕ → Mat → Vec → List (ℕ × (Vec × ℚ × ℚ)) → List (ℕ × (Vec × ℚ × ℚ))
  | [], _A, _b, acc => acc
  | j :: rest, A, b, acc =>
    let a := column_ A j
    let pp := weightedPseudoinverse a weights
    if precBelow pp.2 tol8 then weGo sqrtFn weights n maxRank rest A b acc
    else
      let r := weRow A n j pp.1
      let d := dotQ pp.1 b
      let acc' := acc ++ [(j, (r, d, invSqrt sqrtFn pp.2))]
      if maxRank ≤ acc'.length then acc'
      else
        let Ab := updateAb A b j a r d
        weGo sqrtFn weights n maxRank rest Ab.1 Ab.2 acc'

/-- `weighted_eliminate(A, b, sigmas)` of `Matrix.cpp:383-432`, instrumented
with the eliminated column index of each tuple. -/
def weInstr (sqrtFn : ℚ → ℚ) (A : Mat) (b : Vec) (sigmas : Vec) :
    List (ℕ × (Vec × ℚ × ℚ)) :=
  let n := size2 A
  let maxRank := min A.length n
  let weights := reciprocal (emul sigmas sigmas)
  weGo sqrtFn weights n maxRank (List.range n) A b []

/-- `weighted_eliminate(A, b, sigmas)`: the produced `(r, d, sigma)` tuples. -/
def weighted_eliminate (sqrtFn : ℚ → ℚ) (A : Mat) (b : Vec) (sigmas : Vec) :
    List (Vec × ℚ × ℚ) :=
  (weInstr sqrtFn A b sigmas).map Prod.snd

/-- The eliminated column index of each tuple of `weighted_eliminate`. -/
def weCols (sqrtFn : ℚ → ℚ) (A : Mat) (b : Vec) (sigmas : Vec) : List ℕ :=
  (weInstr sqrtFn A b sigmas).map Prod.fst

/-- `backSubstituteUpper(U, b, unit)` of `Matrix.cpp:527-544`: solve an upper
triangular system backward; rejects a non-square matrix. -/
def backSubstituteUpper (U : Mat) (b : Vec) (unit : Bool) :
    Except String Vec :=
  let m := U.length
  let n := size2 U
  if m ≠ n then .error "backSubstituteUpper: U must be square"
  else .ok <|
    (List.range n).reverse.foldl
      (fun res i =>
        let zi := b.getD i 0 -
          (((List.range n).drop (i + 1)).map (fun j => entry U i j * res.getD j 0)).sum
        res.set i (if unit then zi else zi / entry U i i))
      (List.replicate n 0)

/-- The second `backSubstituteUpper(b, U, unit)` overload of
`Matrix.cpp:547-564`: solve `U' z = b` forward; rejects a non-square matrix. -/
def backSubstituteUpperT (b : Vec) (U : Mat) (unit : Bool) :
    Except String Vec :=
  let m := U.length
  let n := size2 U
  if m ≠ n then .error "backSubstituteUpper: U must be square"
  else .ok <|
    (List.range n).foldl
      (fun res i =>
        let zi := b.getD i 0 -
          (((List.range i)).map (fun j => entry U j i * res.getD j 0)).sum
        res.set i (if unit then zi else zi / entry U i i))
      (List.replicate n 0)

/-- `backSubstituteLower(L, b, unit)` of `Matrix.cpp:567-584`: solve a lower
triangular system forward; rejects a non-square matrix. -/
def backSubstituteLower (L : Mat) (b : Vec) (unit : Bool) :
    Except String Vec :=
  let m := L.length
  let n := size2 L
  if m ≠ n then .error "backSubstituteLower: L must be square"
  else .ok <|
    (List.range n).foldl
      (fun res i =>
        let zi := b.getD i 0 -
          (((List.range i)).map (fun j => entry L i j * res.getD j 0)).sum
        res.set i (if unit then zi else zi / entry L i i))
      (List.replicate n 0)



/-- C8: back-substitution on a non-square matrix fails immediately with the
invalid-argument error and produces no result, in all three routines. -/
theorem backSubstitute_nonsquare_errors (M : Mat) (v : Vec) (unit : Bool)
    (h : M.length ≠ size2 M) :
    backSubstituteUpper M v unit = .error "backSubstituteUpper: U must be square" ∧
    backSubstituteUpperT v M unit = .error "backSubstituteUpper: U must be square" ∧
    backSubstituteLower M v unit = .error "backSubstituteLower: L must be square" := by
  refine ⟨?_, ?_, ?_⟩ <;> simp [backSubstituteUpper, backSubstituteUpperT, backSubstituteLower, h]

theorem backSubstitute_nonsquare_errors_witness :
    ([[1], [2]] : Mat).length ≠ size2 [[1], [2]] ∧
    (backSubstituteUpper [[1], [2]] [0] false = .error "backSubstituteUpper: U must be square" ∧
     backSubstituteUpperT [0] [[1], [2]] false = .error "backSubstituteUpper: U must be square" ∧
     backSubstituteLower [[1], [2]] [0] false = .error "backSubstituteLower: L must be square") :=
  ⟨by simp [size2], backSubstitute_nonsquare_errors [[1], [2]] [0] false (by simp [size2])⟩

/-- C5: a column whose computed precision is below 1e-8 is skipped by the
weighted elimination loop: no tuple is emitted for it and the matrix `A` and
vector `b` are passed on unchanged. -/
theorem weighted_eliminate_skips_zero_precision (sqrtFn : ℚ → ℚ) (weights : Vec)
    (n maxRank j : ℕ) (rest : List ℕ) (A : Mat) (b : Vec)
    (acc : List (ℕ × (Vec × ℚ × ℚ)))
    (h : precBelow (weightedPseudoinverse (column_ A j) weights).2 tol8 = true) :
    weGo sqrtFn weights n maxRank (j :: rest) A b acc =
      weGo sqrtFn weights n maxRank rest A b acc := by
  rw [weGo, h]
  simp

theorem weighted_eliminate_skips_zero_precision_witness :
    precBelow (weightedPseudoinverse (column_ [[0]] 0) [1]).2 tol8 = true ∧
    weGo id [1] 1 1 [0] [[0]] [0] [] = weGo id [1] 1 1 [] [[0]] [0] [] := by
  have h : precBelow (weightedPseudoinverse (column_ [[0]] 0) [1]).2 tol8 = true := by
    norm_num [precBelow, weightedPseudoinverse, column_, wpiConstraintIdx, wpiPrecision,
      tol8, tol9, List.range_succ]
  exact ⟨h, weighted_eliminate_skips_zero_precision id [1] 1 1 0 [] [[0]] [0] [] h⟩



theorem range_find?_eq_some {p : ℕ → Bool} {m i : ℕ} (him : i < m) (hpi : p i = true)
    (hmin : ∀ j, j < i → p j = false) : (List.range m).find? p = some i := by
  induction m with
  | zero => omega
  | succ k ih =>
    rw [List.range_succ, List.find?_append]
    rcases Nat.lt_or_ge i k with h | h
    · rw [ih h]; rfl
    · have hik : i = k := by omega
      subst hik
      have hnone : (List.range i).find? p = none := by
        rw [List.find?_eq_none]
        intro x hx
        simp only [List.mem_range] at hx
        simp [hmin x hx]
      rw [hnone]
      simp [hpi]

theorem getD_map_range (f : ℕ → ℚ) (m k : ℕ) :
    ((List.range m).map f).getD k 0 = if k < m then f k else 0 := by
  rcases Nat.lt_or_ge k m with h | h
  · simp [List.getD_eq_getElem?_getD, List.getElem?_map, List.getElem?_range h, h]
  · have : ((List.range m).map f).length ≤ k := by simpa using h
    simp [List.getD_eq_getElem?_getD, List.getElem?_eq_none this, Nat.not_lt.mpr h]

/-- C4: a hard-constraint row (sigma below 1e-9, coefficient above 1e-9 in
magnitude) short-circuits `weightedPseudoinverse` at the first such row `i`:
infinite precision (`none`) is returned and the pseudo-inverse is zero
except for `1/a[i]` at row `i`. -/
theorem weightedPseudoinverse_hard_constraint (a sigmas : Vec) (i : ℕ)
    (him : i < sigmas.length)
    (hs : sigmas.getD i 0 < tol9) (ha : tol9 < |a.getD i 0|)
    (hfirst : ∀ j, j < i → ¬(sigmas.getD j 0 < tol9 ∧ tol9 < |a.getD j 0|)) :
    (weightedPseudoinverse a sigmas).2 = none ∧
    ∀ k, (weightedPseudoinverse a sigmas).1.getD k 0 =
      if k = i then 1 / a.getD i 0 else 0 := by
  have hfind : wpiConstraintIdx a sigmas = some i := by
    apply range_find?_eq_some him
    · simp only [Bool.and_eq_true, decide_eq_true_eq]
      exact ⟨hs, ha⟩
    · intro j hj
      rw [Bool.eq_false_iff]
      intro hcontr
      rw [Bool.and_eq_true, decide_eq_true_eq, decide_eq_true_eq] at hcontr
      exact hfirst j hj hcontr
  rw [weightedPseudoinverse, hfind]
  refine ⟨rfl, fun k => ?_⟩
  show (delta sigmas.length i (1 / a.getD i 0)).getD k 0 = _
  rw [delta, getD_map_range]
  rcases Nat.lt_or_ge k sigmas.length with h | h
  · simp [h]
  · have : k ≠ i := by omega
    simp [Nat.not_lt.mpr h, this]

theorem weightedPseudoinverse_hard_constraint_witness :
    (weightedPseudoinverse [2] [0]).2 = none ∧
    ∀ k, (weightedPseudoinverse [2] [0]).1.getD k 0 =
      if k = 0 then 1 / ([2] : Vec).getD 0 0 else 0 :=
  weightedPseudoinverse_hard_constraint [2] [0] 0 (by norm_num)
    (by norm_num [tol9]) (by norm_num [tol9]) (fun j hj => absurd hj (by omega))



theorem weRow_getD_self (A : Mat) (n j : ℕ) (pseudo : Vec) (hj : j < n) :
    (weRow A n j pseudo).getD j 0 = 1 := by
  rw [weRow, getD_map_range]
  simp [hj]

theorem weRow_getD_earlier (A : Mat) (n j j2 : ℕ) (pseudo : Vec) (h : j2 < j) :
    (weRow A n j pseudo).getD j2 0 = 0 := by
  rw [weRow, getD_map_range]
  rcases Nat.lt_or_ge j2 n with hn | hn
  · have h1 : j2 ≠ j := by omega
    have h2 : ¬ j < j2 := by omega
    simp [hn, h1, h2]
  · simp [Nat.not_lt.mpr hn]

theorem weGo_entries (sqrtFn : ℚ → ℚ) (weights : Vec) (n maxRank : ℕ)
    (cols : List ℕ) :
    ∀ (A : Mat) (b : Vec) (acc : List (ℕ × (Vec × ℚ × ℚ))),
    (∀ j ∈ cols, j < n) →
    cols.Pairwise (· < ·) →
    (∀ e ∈ acc, ∀ j ∈ cols, e.1 < j) →
    ((acc.map Prod.fst).Pairwise (· < ·)) →
    (∀ e ∈ acc, e.2.1.getD e.1 0 = 1 ∧ ∀ j2 < e.1, e.2.1.getD j2 0 = 0) →
    ((weGo sqrtFn weights n maxRank cols A b acc).map Prod.fst).Pairwise (· < ·) ∧
    ∀ e ∈ weGo sqrtFn weights n maxRank cols A b acc,
      e.2.1.getD e.1 0 = 1 ∧ ∀ j2 < e.1, e.2.1.getD j2 0 = 0 := by
  induction cols with
  | nil =>
    intro A b acc _ _ _ h4 h5
    rw [weGo]
    exact ⟨h4, h5⟩
  | cons j rest ih =>
    intro A b acc h1 h2 h3 h4 h5
    have hjn : j < n := h1 j (List.mem_cons_self j rest)
    have h1r : ∀ j' ∈ rest, j' < n := fun j' hj' => h1 j' (List.mem_cons_of_mem j hj')
    have h2r : rest.Pairwise (· < ·) := (List.pairwise_cons.mp h2).2
    have hjlt : ∀ j' ∈ rest, j < j' := (List.pairwise_cons.mp h2).1
    rw [weGo]
    by_cases hskip : precBelow (weightedPseudoinverse (column_ A j) weights).2 tol8 = true
    · rw [if_pos hskip]
      exact ih A b acc h1r h2r (fun e he j' hj' => h3 e he j' (List.mem_cons_of_mem j hj'))
        h4 h5
    · rw [if_neg hskip]
      simp only
      set r := weRow A n j (weightedPseudoinverse (column_ A j) weights).1 with hr
      set d := dotQ (weightedPseudoinverse (column_ A j) weights).1 b with hd
      set s := invSqrt sqrtFn (weightedPseudoinverse (column_ A j) weights).2 with hs2
      have hacc'_sorted : ((acc ++ [(j, (r, d, s))]).map Prod.fst).Pairwise (· < ·) := by
        rw [List.map_append, List.pairwise_append]
        refine ⟨h4, by simp, ?_⟩
        intro x hx y hy
        simp only [List.map_cons, List.map_nil, List.mem_singleton] at hy
        obtain ⟨e, he, rfl⟩ := List.mem_map.mp hx
        have hyj : y = j := by simpa using hy
        rw [hyj]
        exact h3 e he j (List.mem_cons_self j rest)
      have hacc'_good : ∀ e ∈ acc ++ [(j, (r, d, s))],
          e.2.1.getD e.1 0 = 1 ∧ ∀ j2 < e.1, e.2.1.getD j2 0 = 0 := by
        intro e he
        rcases List.mem_append.mp he with he | he
        · exact h5 e he
        · simp only [List.mem_singleton] at he
          subst he
          exact ⟨weRow_getD_self _ _ _ _ hjn, fun j2 hj2 => weRow_getD_earlier _ _ _ _ _ hj2⟩
      by_cases hstop : maxRank ≤ (acc ++ [(j, (r, d, s))]).length
      · rw [if_pos hstop]
        exact ⟨hacc'_sorted, hacc'_good⟩
      · rw [if_neg hstop]
        apply ih _ _ _ h1r h2r _ hacc'_sorted hacc'_good
        intro e he j' hj'
        rcases List.mem_append.mp he with he | he
        · exact h3 e he j' (List.mem_cons_of_mem j hj')
        · simp only [List.mem_singleton] at he
          subst he
          exact hjlt j' hj'

/-- C9: every tuple emitted by `weighted_eliminate` for an eliminated column
`j` has a unit coefficient at column `j` and zero coefficients at all earlier
columns, and the tuples are produced in strictly increasing column order. -/
theorem weighted_eliminate_rows_unit_increasing (sqrtFn : ℚ → ℚ) (A : Mat)
    (b : Vec) (sigmas : Vec) :
    (weCols sqrtFn A b sigmas).Pairwise (· < ·) ∧
    ∀ e ∈ weInstr sqrtFn A b sigmas,
      e.2.1.getD e.1 0 = 1 ∧ ∀ j2 < e.1, e.2.1.getD j2 0 = 0 := by
  unfold weCols weInstr
  exact weGo_entries sqrtFn _ _ _ _ A b []
    (fun j hj => List.mem_range.mp hj) (List.pairwise_lt_range _)
    (by simp) (by simp) (by simp)



theorem weGo_nil_rows (sqrtFn : ℚ → ℚ) (n maxRank : ℕ) (cols : List ℕ) :
    ∀ (b : Vec) (acc : List (ℕ × (Vec × ℚ × ℚ))),
    weGo sqrtFn [] n maxRank cols [] b acc = acc := by
  induction cols with
  | nil => intro b acc; rw [weGo]
  | cons j rest ih =>
    intro b acc
    have hskip : precBelow (weightedPseudoinverse (column_ [] j) []).2 tol8 = true := by
      norm_num [precBelow, weightedPseudoinverse, column_, wpiConstraintIdx,
        wpiPrecision, tol8, tol9]
    rw [weGo, hskip]
    simpa using ih b acc

theorem weGo_length_le (sqrtFn : ℚ → ℚ) (weights : Vec) (n maxRank : ℕ)
    (cols : List ℕ) :
    ∀ (A : Mat) (b : Vec) (acc : List (ℕ × (Vec × ℚ × ℚ))),
    acc.length < maxRank →
    (weGo sqrtFn weights n maxRank cols A b acc).length ≤ maxRank := by
  induction cols with
  | nil => intro A b acc h; rw [weGo]; omega
  | cons j rest ih =>
    intro A b acc h
    rw [weGo]
    by_cases hskip : precBelow (weightedPseudoinverse (column_ A j) weights).2 tol8 = true
    · rw [if_pos hskip]
      exact ih A b acc h
    · rw [if_neg hskip]
      simp only
      by_cases hstop : maxRank ≤ (acc ++
          [(j, (weRow A n j (weightedPseudoinverse (column_ A j) weights).1,
            dotQ (weightedPseudoinverse (column_ A j) weights).1 b,
            invSqrt sqrtFn (weightedPseudoinverse (column_ A j) weights).2))]).length
      · rw [if_pos hstop]
        simp only [List.length_append, List.length_cons, List.length_nil]
        omega
      · rw [if_neg hstop]
        apply ih
        simp only [List.length_append, List.length_cons, List.length_nil] at hstop ⊢
        omega

/-- C7: `weighted_eliminate` produces at most `min(m,n)` tuples, and once a
produced tuple reaches that bound the loop returns at once: the remaining
columns are not eliminated and no further update of `A` or `b` happens. -/
theorem weighted_eliminate_rank_bound (sqrtFn : ℚ → ℚ) (A : Mat) (b : Vec)
    (sigmas : Vec) (hs : sigmas.length = A.length) :
    (weighted_eliminate sqrtFn A b sigmas).length ≤ min A.length (size2 A) ∧
    (∀ (j : ℕ) (rest : List ℕ) (A' : Mat) (b' : Vec)
        (acc : List (ℕ × (Vec × ℚ × ℚ))),
      precBelow (weightedPseudoinverse (column_ A' j)
        (reciprocal (emul sigmas sigmas))).2 tol8 = false →
      min A.length (size2 A) ≤ acc.length + 1 →
      weGo sqrtFn (reciprocal (emul sigmas sigmas)) (size2 A)
          (min A.length (size2 A)) (j :: rest) A' b' acc =
        acc ++ [(j, (weRow A' (size2 A) j (weightedPseudoinverse (column_ A' j)
            (reciprocal (emul sigmas sigmas))).1,
          dotQ (weightedPseudoinverse (column_ A' j)
            (reciprocal (emul sigmas sigmas))).1 b',
          invSqrt sqrtFn (weightedPseudoinverse (column_ A' j)
            (reciprocal (emul sigmas sigmas))).2))]) := by
  constructor
  · rw [weighted_eliminate, weInstr, List.length_map]
    rcases Nat.eq_zero_or_pos (min A.length (size2 A)) with hzero | hpos
    · rw [hzero]
      rcases Nat.min_eq_zero_iff.mp hzero with hm | hn
      · have hA : A = [] := List.length_eq_zero.mp hm
        have hsig : sigmas = [] := List.length_eq_zero.mp (by rw [hs, hm])
        subst hA hsig
        rw [show reciprocal (emul ([] : Vec) []) = [] from rfl, weGo_nil_rows]
        simp
      · rw [hn, List.range_zero, weGo]
        simp
    · exact weGo_length_le sqrtFn _ _ _ _ A b [] (by simpa using hpos)
  · intro j rest A' b' acc hfalse hstop
    rw [weGo, hfalse]
    simp only [Bool.false_eq_true, if_false]
    rw [if_pos]
    simp only [List.length_append, List.length_singleton]
    omega

theorem weighted_eliminate_rank_bound_witness :
    (weighted_eliminate id [[1]] [1] [1]).length ≤
      min ([[1]] : Mat).length (size2 [[1]]) ∧
    (∀ (j : ℕ) (rest : List ℕ) (A' : Mat) (b' : Vec)
        (acc : List (ℕ × (Vec × ℚ × ℚ))),
      precBelow (weightedPseudoinverse (column_ A' j)
        (reciprocal (emul [1] [1]))).2 tol8 = false →
      min ([[1]] : Mat).length (size2 [[1]]) ≤ acc.length + 1 →
      weGo id (reciprocal (emul [1] [1])) (size2 [[1]])
          (min ([[1]] : Mat).length (size2 [[1]])) (j :: rest) A' b' acc =
        acc ++ [(j, (weRow A' (size2 [[1]]) j (weightedPseudoinverse (column_ A' j)
            (reciprocal (emul [1] [1]))).1,
          dotQ (weightedPseudoinverse (column_ A' j)
            (reciprocal (emul [1] [1]))).1 b',
          invSqrt id (weightedPseudoinverse (column_ A' j)
            (reciprocal (emul [1] [1]))).2))]) :=
  weighted_eliminate_rank_bound id [[1]] [1] [1] rfl



/-- C10 counterexample: `a = [1e-9]`, `sigmas = [0]` contains no
hard-constraint row (the coefficient magnitude is not *above* 1e-9), yet the
fast `weightedPseudoinverse` divides by `sigma*sigma = 0` on that row. -/
theorem weightedPseudoinverse_divzero_counterexample :
    ([tol9] : Vec).length = ([0] : Vec).length ∧
    (∀ i, ¬(([0] : Vec).getD i 0 < tol9 ∧ tol9 < |([tol9] : Vec).getD i 0|)) ∧
    wpiDividesByZero [tol9] [0] = true := by
  have habs : |tol9| = tol9 := abs_of_pos (by norm_num [tol9])
  refine ⟨rfl, ?_, ?_⟩
  · intro i
    rintro ⟨h1, h2⟩
    match i with
    | 0 =>
      rw [List.getD_cons_zero, habs] at h2
      exact lt_irrefl _ h2
    | n + 1 =>
      rw [List.getD_cons_succ, List.getD_nil] at h2
      rw [abs_zero] at h2
      exact absurd h2 (by norm_num [tol9])
  · rw [wpiDividesByZero]
    have hfind : wpiConstraintIdx [tol9] [0] = none := by
      rw [wpiConstraintIdx, List.find?_eq_none]
      intro i hi
      rw [List.mem_range] at hi
      have hi0 : i = 0 := by
        simp only [List.length_cons, List.length_nil] at hi
        omega
      subst hi0
      intro hcontr
      rw [Bool.and_eq_true, decide_eq_true_eq, decide_eq_true_eq] at hcontr
      simp only [List.getD_cons_zero] at hcontr
      rw [habs] at hcontr
      exact lt_irrefl _ hcontr.2
    rw [hfind]
    simp only [List.length_cons, List.length_nil, List.range_succ, List.range_zero,
      List.nil_append, List.any_cons, List.any_nil, List.getD_cons_zero, habs]
    have h2 : ((0:ℚ) * 0 == 0) = true := by norm_num
    simp only [h2, Bool.and_true]
    have h3 : decide (tol9 < tol9) = false := by simp
    rw [h3]
    simp

/-- C10 amended: for equal-length `a` and `sigmas` with no hard-constraint row
and no row with `sigma` exactly zero but non-negligible coefficient, the fast
`weightedPseudoinverse` performs no division by zero; negligible rows get
weight exactly zero, and below-threshold accumulated precision zeroes the
pseudo-inverse while that precision is still returned. -/
theorem weightedPseudoinverse_no_divzero (a sigmas : Vec)
    (hlen : a.length = sigmas.length)
    (hnc : ∀ i < sigmas.length, ¬(sigmas.getD i 0 < tol9 ∧ tol9 < |a.getD i 0|))
    (hz : ∀ i < sigmas.length, sigmas.getD i 0 ≠ 0 ∨ |a.getD i 0| < tol9) :
    wpiDividesByZero a sigmas = false ∧
    (∀ i < sigmas.length, |a.getD i 0| < tol9 →
      (wpiPrecisions a sigmas).getD i 0 = 0) ∧
    (wpiPrecision a sigmas < tol9 →
      (weightedPseudoinverse a sigmas).1 = (List.range sigmas.length).map (fun _ => 0) ∧
      (weightedPseudoinverse a sigmas).2 = some (wpiPrecision a sigmas)) := by
  have hfind : wpiConstraintIdx a sigmas = none := by
    rw [wpiConstraintIdx, List.find?_eq_none]
    intro i hi
    rw [List.mem_range] at hi
    intro hcontr
    rw [Bool.and_eq_true, decide_eq_true_eq, decide_eq_true_eq] at hcontr
    exact hnc i hi hcontr
  refine ⟨?_, ?_, ?_⟩
  · rw [wpiDividesByZero, hfind]
    simp only [Bool.or_eq_false_iff]
    constructor
    · rw [List.any_eq_false]
      intro i hi
      rw [List.mem_range] at hi
      simp only [Bool.and_eq_true, Bool.not_eq_true', decide_eq_false_iff_not, not_not,
        beq_iff_eq, not_and]
      intro hna hcontr
      rcases hz i hi with hz0 | hneg
      · exact hz0 (mul_self_eq_zero.mp hcontr)
      · exact hna hneg
    · by_cases hp : wpiPrecision a sigmas < tol9
      · simp [hp]
      · have hne : wpiPrecision a sigmas ≠ 0 := by
          intro h0
          rw [h0] at hp
          exact hp (by norm_num [tol9])
        simp [hp, hne]
  · intro i hi hsmall
    rw [wpiPrecisions, getD_map_range, if_pos hi, if_pos hsmall]
  · intro hprec
    rw [weightedPseudoinverse, hfind]
    simp [hprec]

theorem weightedPseudoinverse_no_divzero_witness :
    wpiDividesByZero [0] [0] = false ∧
    (∀ i < ([0] : Vec).length, |([0] : Vec).getD i 0| < tol9 →
      (wpiPrecisions [0] [0]).getD i 0 = 0) ∧
    (wpiPrecision [0] [0] < tol9 →
      (weightedPseudoinverse [0] [0]).1 =
        (List.range ([0] : Vec).length).map (fun _ => 0) ∧
      (weightedPseudoinverse [0] [0]).2 = some (wpiPrecision [0] [0])) :=
  weightedPseudoinverse_no_divzero [0] [0] rfl
    (fun i hi => by
      have hi0 : i = 0 := by
        simp only [List.length_cons, List.length_nil] at hi
        omega
      subst hi0
      rintro ⟨-, h2⟩
      rw [List.getD_cons_zero, abs_zero] at h2
      exact absurd h2 (by norm_num [tol9]))
    (fun i hi => by
      have hi0 : i = 0 := by
        simp only [List.length_cons, List.length_nil] at hi
        omega
      subst hi0
      exact Or.inr (by rw [List.getD_cons_zero, abs_zero]; norm_num [tol9]))



/-- `negativePivotThreshold = -1e-1` from `cholesky.cpp`. -/
def negativePivotThreshold : ℚ := -(1 / 10)

/-- `zeroPivotThreshold = 1e-6` from `cholesky.cpp`. -/
def zeroPivotThreshold : ℚ := 1 / 1000000

/-- `underconstrainedPrior = 1e-5` from `cholesky.cpp`. -/
def underconstrainedPrior : ℚ := 1 / 100000

/-- A square matrix accessed by indices, for the in-place Cholesky routines. -/
abbrev MatF := ℕ → ℕ → ℚ

/-- `choleskyStep(ATA, k, order)` of `cholesky.cpp:38-77`, with the library
`sqrt` passed as `sqrtFn`.  Throws on a pivot below the negative threshold;
substitutes the under-constrained prior and zeroes the remaining row on a
zero pivot (returning `false`); otherwise performs the scaled row update and
rank-1 block update (returning `true`). -/
def choleskyStep (sqrtFn : ℚ → ℚ) (ATA : MatF) (k order : ℕ) :
    Except String (MatF × Bool) :=
  let alpha0 := ATA k k
  if alpha0 < negativePivotThreshold then
    .error "The matrix was found to be non-positive-semidefinite when factoring with careful Cholesky."
  else
    let alpha := if alpha0 < 0 then 0 else alpha0
    let beta := sqrtFn alpha
    if zeroPivotThreshold < beta then
      .ok (fun i j =>
        if i = k ∧ j = k then beta
        else if i = k ∧ k + 1 ≤ j ∧ j < order then ATA k j / beta
        else if k + 1 ≤ i ∧ i < order ∧ k + 1 ≤ j ∧ j < order then
          ATA i j - ATA k i / beta * (ATA k j / beta)
        else ATA i j, true)
    else
      .ok (fun i j =>
        if i = k ∧ j = k then underconstrainedPrior
        else if i = k ∧ k + 1 ≤ j ∧ j < order then 0
        else ATA i j, false)

/-- One iteration of the `choleskyCareful` loop (`cholesky.cpp:101-110`):
run `choleskyStep` on row `k`; on success set `maxrank` to `k+1`, otherwise
clear `fullRank`. -/
def cholCarefulStep (sqrtFn : ℚ → ℚ) (ord : ℕ) (st : MatF × ℕ × Bool) (k : ℕ) :
    Except String (MatF × ℕ × Bool) :=
  (choleskyStep sqrtFn st.1 k ord).bind fun p =>
    if p.2 then pure (p.1, k + 1, st.2.2) else pure (p.1, st.2.1, false)

/-- `choleskyCareful(ATA, order)` of `cholesky.cpp:80-113`: factor rows
`0..order-1` (all `n` rows when `order` is negative), tracking `maxrank`
(set to `k+1` after each successful step) and `fullRank` (cleared by any
skipped row). -/
def choleskyCareful (sqrtFn : ℚ → ℚ) (ATA : MatF) (n : ℕ) (order : Int) :
    Except String (MatF × ℕ × Bool) :=
  let ord : ℕ := if order < 0 then n else order.toNat
  (List.range ord).foldlM (cholCarefulStep sqrtFn ord) (ATA, 0, true)

/-- The `choleskyCareful` loop instrumented to record each row's
success flag instead of folding it into `maxrank`/`fullRank`. -/
def cholResultsStep (sqrtFn : ℚ → ℚ) (ord : ℕ) (st : MatF × List (ℕ × Bool))
    (k : ℕ) : Except String (MatF × List (ℕ × Bool)) :=
  (choleskyStep sqrtFn st.1 k ord).bind fun p => pure (p.1, st.2 ++ [(k, p.2)])

/-- The per-row outcomes of the `choleskyCareful` loop: the final matrix and
the `(k, success)` result of each `choleskyStep` call, in order. -/
def choleskyStepResults (sqrtFn : ℚ → ℚ) (ATA : MatF) (n : ℕ) (order : Int) :
    Except String (MatF × List (ℕ × Bool)) :=
  let ord : ℕ := if order < 0 then n else order.toNat
  (List.range ord).foldlM (cholResultsStep sqrtFn ord) (ATA, [])

/-- The `maxrank` value that the flags of the factorization steps determine:
`k+1` for the last step flagged successful, `mr0` if none. -/
def lastSuccessBound (mr0 : ℕ) (l : List (ℕ × Bool)) : ℕ :=
  l.foldl (fun mr p => if p.2 then p.1 + 1 else mr) mr0

theorem except_map_map {α β γ : Type} (f : α → β) (g : β → γ)
    (x : Except String α) : (x.map f).map g = x.map (fun a => g (f a)) := by
  cases x <;> rfl

theorem except_map_congr {α β : Type} {f g : α → β} {x : Except String α}
    (h : ∀ a, f a = g a) : x.map f = x.map g := by
  cases x with
  | error e => rfl
  | ok a => simp [Except.map, h a]

theorem except_pure_bind {α β : Type} (x : α) (f : α → Except String β) :
    ((pure x : Except String α) >>= f) = f x := rfl

/-- The step-results fold with a non-empty starting accumulator factors
through the empty-accumulator fold. -/
theorem choleskyResults_fold_acc (sqrtFn : ℚ → ℚ) (ord : ℕ) (ks : List ℕ) :
    ∀ (A : MatF) (acc : List (ℕ × Bool)),
    ks.foldlM (cholResultsStep sqrtFn ord) (A, acc) =
    (ks.foldlM (cholResultsStep sqrtFn ord) (A, [])).map
      (fun (p : MatF × List (ℕ × Bool)) => (p.1, acc ++ p.2)) := by
  induction ks with
  | nil =>
    intro A acc
    simp [Except.map, pure, Except.pure]
  | cons k rest ih =>
    intro A acc
    simp only [List.foldlM_cons]
    cases hstep : choleskyStep sqrtFn A k ord with
    | error e =>
      have h1 : cholResultsStep sqrtFn ord (A, acc) k = .error e := by
        rw [cholResultsStep, hstep]; rfl
      have h2 : cholResultsStep sqrtFn ord (A, []) k = .error e := by
        rw [cholResultsStep, hstep]; rfl
      rw [h1, h2]
      rfl
    | ok p =>
      obtain ⟨A', ok⟩ := p
      have h1 : cholResultsStep sqrtFn ord (A, acc) k = pure (A', acc ++ [(k, ok)]) := by
        rw [cholResultsStep, hstep]; rfl
      have h2 : cholResultsStep sqrtFn ord (A, []) k = pure (A', [] ++ [(k, ok)]) := by
        rw [cholResultsStep, hstep]; rfl
      rw [h1, h2, except_pure_bind, except_pure_bind,
        ih A' (acc ++ [(k, ok)]), ih A' ([] ++ [(k, ok)]), except_map_map]
      apply except_map_congr
      intro a
      simp

/-- The `choleskyCareful` fold is the step-results fold post-processed:
`maxrank` is one past the last successful row and `fullRank` the conjunction
of all success flags. -/
theorem choleskyCareful_fold_spec (sqrtFn : ℚ → ℚ) (ord : ℕ) (ks : List ℕ) :
    ∀ (A : MatF) (mr0 : ℕ) (fr0 : Bool),
    ks.foldlM (cholCarefulStep sqrtFn ord) (A, mr0, fr0) =
    (ks.foldlM (cholResultsStep sqrtFn ord) (A, [])).map
      (fun (p : MatF × List (ℕ × Bool)) =>
        (p.1, lastSuccessBound mr0 p.2, fr0 && p.2.all Prod.snd)) := by
  induction ks with
  | nil =>
    intro A mr0 fr0
    cases fr0 <;> simp [lastSuccessBound, Except.map, pure, Except.pure]
  | cons k rest ih =>
    intro A mr0 fr0
    simp only [List.foldlM_cons]
    cases hstep : choleskyStep sqrtFn A k ord with
    | error e =>
      have h1 : cholCarefulStep sqrtFn ord (A, mr0, fr0) k = .error e := by
        rw [cholCarefulStep, hstep]; rfl
      have h2 : cholResultsStep sqrtFn ord (A, []) k = .error e := by
        rw [cholResultsStep, hstep]; rfl
      rw [h1, h2]
      rfl
    | ok p =>
      obtain ⟨A', ok⟩ := p
      have h2 : cholResultsStep sqrtFn ord (A, []) k = pure (A', [] ++ [(k, ok)]) := by
        rw [cholResultsStep, hstep]; rfl
      cases ok with
      | true =>
        have h1 : cholCarefulStep sqrtFn ord (A, mr0, fr0) k = pure (A', k + 1, fr0) := by
          rw [cholCarefulStep, hstep]; rfl
        rw [h1, h2, except_pure_bind, except_pure_bind, ih A' (k + 1) fr0,
          choleskyResults_fold_acc sqrtFn ord rest A' ([] ++ [(k, true)]),
          except_map_map]
        apply except_map_congr
        intro a
        simp [lastSuccessBound]
      | false =>
        have h1 : cholCarefulStep sqrtFn ord (A, mr0, fr0) k = pure (A', mr0, false) := by
          rw [cholCarefulStep, hstep]; rfl
        rw [h1, h2, except_pure_bind, except_pure_bind, ih A' mr0 false,
          choleskyResults_fold_acc sqrtFn ord rest A' ([] ++ [(k, false)]),
          except_map_map]
        apply except_map_congr
        intro a
        simp [lastSuccessBound]

/-- The diagonal-only matrix `diag(0, 4)` used to exhibit a zero pivot
followed by a successful pivot. -/
def cexATA : MatF := fun i j => if i = 1 ∧ j = 1 then 4 else 0

/-- A square-root table adequate for `cexATA`: `sqrt 4 = 2`, `sqrt 0 = 0`. -/
def cexSqrt : ℚ → ℚ := fun q => if q = 4 then 2 else 0

/-- C6 counterexample: on `diag(0, 4)` the first pivot is zero (skipped, with
the synthetic prior substituted) and the second succeeds, so exactly one row
is successfully factored, yet `choleskyCareful` returns `maxrank = 2` (with
`fullRank = false`): the returned count is not the number of successfully
factored rows. -/
theorem choleskyCareful_maxrank_counterexample :
    (choleskyCareful cexSqrt cexATA 2 2).map (fun t => (t.2.1, t.2.2)) =
      .ok (2, false) ∧
    (choleskyStepResults cexSqrt cexATA 2 2).map (fun p => p.2.map Prod.snd) =
      .ok [false, true] ∧
    ([false, true].count true = 1) ∧ (2 : ℕ) ≠ 1 := by
  have hstep0 : choleskyStep cexSqrt cexATA 0 2 =
      .ok (fun i j =>
        if i = 0 ∧ j = 0 then underconstrainedPrior
        else if i = 0 ∧ 0 + 1 ≤ j ∧ j < 2 then 0
        else cexATA i j, false) := by
    rw [choleskyStep]
    rw [if_neg (by norm_num [cexATA, negativePivotThreshold])]
    show (if zeroPivotThreshold < cexSqrt (if cexATA 0 0 < 0 then 0 else cexATA 0 0)
      then _ else _) = _
    rw [if_neg (by norm_num [cexATA, cexSqrt, zeroPivotThreshold])]
  have hA1 : ∀ (A : MatF), A = (fun i j =>
        if i = 0 ∧ j = 0 then underconstrainedPrior
        else if i = 0 ∧ 0 + 1 ≤ j ∧ j < 2 then 0
        else cexATA i j) → choleskyStep cexSqrt A 1 2 =
      .ok (fun i j =>
        if i = 1 ∧ j = 1 then cexSqrt 4
        else if i = 1 ∧ 1 + 1 ≤ j ∧ j < 2 then A 1 j / cexSqrt 4
        else if 1 + 1 ≤ i ∧ i < 2 ∧ 1 + 1 ≤ j ∧ j < 2 then
          A i j - A 1 i / cexSqrt 4 * (A 1 j / cexSqrt 4)
        else A i j, true) := by
    intro A hA
    have h11 : A 1 1 = 4 := by rw [hA]; norm_num [cexATA]
    rw [choleskyStep, h11]
    rw [if_neg (by norm_num [negativePivotThreshold])]
    show (if zeroPivotThreshold < cexSqrt (if (4:ℚ) < 0 then 0 else 4)
      then _ else _) = _
    rw [if_pos (by norm_num [cexSqrt, zeroPivotThreshold])]
    rw [show (if (4:ℚ) < 0 then 0 else 4) = (4:ℚ) from by norm_num]
  refine ⟨?_, ?_, by norm_num, by norm_num⟩
  · rw [choleskyCareful]
    show ((List.range 2).foldlM (cholCarefulStep cexSqrt 2) (cexATA, 0, true)).map
      (fun t => (t.2.1, t.2.2)) = _
    rw [show List.range 2 = [0, 1] from by
      rw [List.range_succ, List.range_succ, List.range_zero]; rfl]
    rw [List.foldlM_cons]
    rw [show cholCarefulStep cexSqrt 2 (cexATA, 0, true) 0 =
      pure ((fun i j =>
        if i = 0 ∧ j = 0 then underconstrainedPrior
        else if i = 0 ∧ 0 + 1 ≤ j ∧ j < 2 then 0
        else cexATA i j), 0, false) from by
      rw [cholCarefulStep, hstep0]; rfl]
    rw [except_pure_bind, List.foldlM_cons]
    rw [show cholCarefulStep cexSqrt 2 ((fun i j =>
        if i = 0 ∧ j = 0 then underconstrainedPrior
        else if i = 0 ∧ 0 + 1 ≤ j ∧ j < 2 then 0
        else cexATA i j), 0, false) 1 =
      pure ((fun i j =>
        if i = 1 ∧ j = 1 then cexSqrt 4
        else if i = 1 ∧ 1 + 1 ≤ j ∧ j < 2 then
          (fun i j =>
            if i = 0 ∧ j = 0 then underconstrainedPrior
            else if i = 0 ∧ 0 + 1 ≤ j ∧ j < 2 then 0
            else cexATA i j) 1 j / cexSqrt 4
        else if 1 + 1 ≤ i ∧ i < 2 ∧ 1 + 1 ≤ j ∧ j < 2 then
          (fun i j =>
            if i = 0 ∧ j = 0 then underconstrainedPrior
            else if i = 0 ∧ 0 + 1 ≤ j ∧ j < 2 then 0
            else cexATA i j) i j -
          (fun i j =>
            if i = 0 ∧ j = 0 then underconstrainedPrior
            else if i = 0 ∧ 0 + 1 ≤ j ∧ j < 2 then 0
            else cexATA i j) 1 i / cexSqrt 4 *
          ((fun i j =>
            if i = 0 ∧ j = 0 then underconstrainedPrior
            else if i = 0 ∧ 0 + 1 ≤ j ∧ j < 2 then 0
            else cexATA i j) 1 j / cexSqrt 4)
        else (fun i j =>
          if i = 0 ∧ j = 0 then underconstrainedPrior
          else if i = 0 ∧ 0 + 1 ≤ j ∧ j < 2 then 0
          else cexATA i j) i j), 2, false) from by
      rw [cholCarefulStep, hA1 _ rfl]; rfl]
    rw [except_pure_bind]
    rfl
  · rw [choleskyStepResults]
    show ((List.range 2).foldlM (cholResultsStep cexSqrt 2) (cexATA, [])).map
      (fun p => p.2.map Prod.snd) = _
    rw [show List.range 2 = [0, 1] from by
      rw [List.range_succ, List.range_succ, List.range_zero]; rfl]
    rw [List.foldlM_cons]
    rw [show cholResultsStep cexSqrt 2 (cexATA, []) 0 =
      pure ((fun i j =>
        if i = 0 ∧ j = 0 then underconstrainedPrior
        else if i = 0 ∧ 0 + 1 ≤ j ∧ j < 2 then 0
        else cexATA i j), [(0, false)]) from by
      rw [cholResultsStep, hstep0]; rfl]
    rw [except_pure_bind, List.foldlM_cons]
    cases hs : choleskyStep cexSqrt (fun i j =>
        if i = 0 ∧ j = 0 then underconstrainedPrior
        else if i = 0 ∧ 0 + 1 ≤ j ∧ j < 2 then 0
        else cexATA i j) 1 2 with
    | error e =>
      rw [hA1 _ rfl] at hs
      exact absurd hs (by simp)
    | ok p =>
      have hp : p.2 = true := by
        rw [hA1 _ rfl] at hs
        have := congrArg (fun (x : Except String (MatF × Bool)) =>
          match x with | .ok q => q.2 | .error _ => false) hs
        simpa using this.symm
      rw [show cholResultsStep cexSqrt 2 ((fun i j =>
          if i = 0 ∧ j = 0 then underconstrainedPrior
          else if i = 0 ∧ 0 + 1 ≤ j ∧ j < 2 then 0
          else cexATA i j), [(0, false)]) 1 =
        pure (p.1, [(0, false), (1, p.2)]) from by
        rw [cholResultsStep, hs]; rfl]
      rw [except_pure_bind, hp]
      rfl

/-- C6 amended: `choleskyStep` throws the non-positive-semidefinite error
exactly when the pivot is below the negative round-off threshold; a pivot
that is zero within tolerance is handled non-fatally by writing the synthetic
prior on the diagonal and zeroing the rest of the row (flagging the row as
skipped); and `choleskyCareful` returns one past the index of the last
successfully factored row together with whether every row succeeded. -/
theorem choleskyCareful_error_handling :
    (∀ (sqrtFn : ℚ → ℚ) (ATA : MatF) (k order : ℕ),
      choleskyStep sqrtFn ATA k order =
        .error "The matrix was found to be non-positive-semidefinite when factoring with careful Cholesky." ↔
      ATA k k < negativePivotThreshold) ∧
    (∀ (sqrtFn : ℚ → ℚ) (ATA : MatF) (k order : ℕ),
      ¬ ATA k k < negativePivotThreshold →
      ¬ zeroPivotThreshold < sqrtFn (if ATA k k < 0 then 0 else ATA k k) →
      ∃ A', choleskyStep sqrtFn ATA k order = .ok (A', false) ∧
        A' k k = underconstrainedPrior ∧
        (∀ j, k + 1 ≤ j → j < order → A' k j = 0) ∧
        (∀ i j, i ≠ k → A' i j = ATA i j)) ∧
    (∀ (sqrtFn : ℚ → ℚ) (ATA : MatF) (n : ℕ) (order : Int),
      choleskyCareful sqrtFn ATA n order =
        (choleskyStepResults sqrtFn ATA n order).map
          (fun p => (p.1, lastSuccessBound 0 p.2, p.2.all Prod.snd))) := by
  refine ⟨?_, ?_, ?_⟩
  · intro sqrtFn ATA k order
    constructor
    · intro h
      by_contra hc
      rw [choleskyStep, if_neg hc] at h
      revert h
      show (if zeroPivotThreshold < sqrtFn (if ATA k k < 0 then 0 else ATA k k)
        then _ else _) ≠ _
      by_cases hb : zeroPivotThreshold < sqrtFn (if ATA k k < 0 then 0 else ATA k k)
      · rw [if_pos hb]
        simp
      · rw [if_neg hb]
        simp
    · intro h
      rw [choleskyStep, if_pos h]
  · intro sqrtFn ATA k order h1 h2
    refine ⟨(fun i j =>
        if i = k ∧ j = k then underconstrainedPrior
        else if i = k ∧ k + 1 ≤ j ∧ j < order then 0
        else ATA i j), ?_, ?_, ?_, ?_⟩
    · rw [choleskyStep, if_neg h1]
      show (if zeroPivotThreshold < sqrtFn (if ATA k k < 0 then 0 else ATA k k)
        then _ else _) = _
      rw [if_neg h2]
    · simp
    · intro j hj1 hj2
      have hne : ¬ (k = k ∧ j = k) := by
        rintro ⟨-, rfl⟩
        omega
      show (if k = k ∧ j = k then underconstrainedPrior
        else if k = k ∧ k + 1 ≤ j ∧ j < order then 0 else ATA k j) = 0
      rw [if_neg hne,
        if_pos (show k = k ∧ k + 1 ≤ j ∧ j < order from ⟨rfl, hj1, hj2⟩)]
    · intro i j hik
      have h3 : ¬ (i = k ∧ j = k) := fun hc => hik hc.1
      have h4 : ¬ (i = k ∧ k + 1 ≤ j ∧ j < order) := fun hc => hik hc.1
      show (if i = k ∧ j = k then underconstrainedPrior
        else if i = k ∧ k + 1 ≤ j ∧ j < order then 0 else ATA i j) = ATA i j
      rw [if_neg h3, if_neg h4]
  · intro sqrtFn ATA n order
    rw [choleskyCareful, choleskyStepResults]
    rw [choleskyCareful_fold_spec]
    apply except_map_congr
    intro a
    simp

theorem choleskyCareful_error_handling_witness :
    ((choleskyStep cexSqrt (fun _ _ => -1) 0 1 =
        .error "The matrix was found to be non-positive-semidefinite when factoring with careful Cholesky." ↔
      (fun (_ _ : ℕ) => (-1 : ℚ)) 0 0 < negativePivotThreshold) ∧
     (∃ A', choleskyStep cexSqrt cexATA 0 2 = .ok (A', false) ∧
        A' 0 0 = underconstrainedPrior ∧
        (∀ j, 0 + 1 ≤ j → j < 2 → A' 0 j = 0) ∧
        (∀ i j, i ≠ 0 → A' i j = cexATA i j)) ∧
     (choleskyCareful cexSqrt cexATA 2 2 =
        (choleskyStepResults cexSqrt cexATA 2 2).map
          (fun p => (p.1, lastSuccessBound 0 p.2, p.2.all Prod.snd)))) :=
  ⟨choleskyCareful_error_handling.1 cexSqrt (fun _ _ => -1) 0 1,
   choleskyCareful_error_handling.2.1 cexSqrt cexATA 0 2
     (by norm_num [cexATA, negativePivotThreshold])
     (by norm_num [cexATA, cexSqrt, zeroPivotThreshold]),
   choleskyCareful_error_handling.2.2 cexSqrt cexATA 2 2⟩



/-! ## Bayes tree (`src/gtsam/inference/BayesTree-inl.h`)

Cliques live in an arena (`cliques`, indexed by allocation order, mirroring
the `shared_ptr` heap objects); `root` and the variable index `nodes_` are as
in the source.  A clique's conditional is stored the way gtsam stores a
multi-frontal conditional: the ordered key list with the first `nrFrontals`
keys frontal and the rest the separator. -/

/-- A single-frontal conditional (`IndexConditional`): the frontal key and the
ordered parent keys. -/
structure Cond where
  key : ℕ
  parents : List ℕ
deriving DecidableEq

/-- One clique object: its conditional (`keys`, `nrFrontals`), the non-owning
parent reference and the owned children, as arena indices. -/
structure CliqueRec where
  keys : List ℕ
  nrFrontals : ℕ
  parent : Option ℕ
  children : List ℕ
deriving DecidableEq

/-- The frontal keys of a clique's conditional. -/
def CliqueRec.frontals (c : CliqueRec) : List ℕ := c.keys.take c.nrFrontals

/-- The separator (parent keys) of a clique's conditional. -/
def CliqueRec.separator (c : CliqueRec) : List ℕ := c.keys.drop c.nrFrontals

/-- A Bayes tree: the clique arena, the root reference, and the `nodes_`
index from variable key to clique. -/
structure BayesTree where
  cliques : List CliqueRec
  root : Option ℕ
  nodes : List (Option ℕ)
deriving DecidableEq

/-- The empty Bayes tree (also the result of `clear()`). -/
def emptyBayesTree : BayesTree := ⟨[], none, []⟩

/-- `nodes_.resize(max(sz, nodes_.size()))`: grow-only resize with `none`
(null `shared_ptr`) fill. -/
def nodesResize (nodes : List (Option ℕ)) (sz : ℕ) : List (Option ℕ) :=
  if nodes.length < sz then nodes ++ List.replicate (sz - nodes.length) none
  else nodes

/-- In-place update of one arena entry (no-op out of range). -/
def listModify {α : Type} (l : List α) (i : ℕ) (f : α → α) : List α :=
  match l.get? i with
  | none => l
  | some a => l.set i (f a)

/-- `bayesTree[key]` through the `nodes_` index (`none` for a key that is out
of range or whose entry is a null pointer). -/
def nodesGet (t : BayesTree) (k : ℕ) : Option ℕ := t.nodes.getD k none

/-- `BayesTree::findParentClique(parents)` (`BayesTree-inl.h:363-369`):
`*min_element(parents)`, the lowest-ordered parent key. -/
def findParentClique (parents : List ℕ) : ℕ :=
  match parents with
  | [] => 0
  | p :: ps => ps.foldl Nat.min p

/-- `BayesTree::addClique(conditional, parent_clique)`
(`BayesTree-inl.h:153-175`): allocate a clique holding exactly the
conditional, index its frontal key, and attach it under the parent (or make
it the root).  Returns the tree and the new clique's id. -/
def addClique1 (t : BayesTree) (c : Cond) (parent : Option ℕ) :
    BayesTree × ℕ :=
  let id := t.cliques.length
  let rec0 : CliqueRec := ⟨c.key :: c.parents, 1, parent, []⟩
  let nodes := (nodesResize t.nodes (c.key + 1)).set c.key (some id)
  let cliques := t.cliques ++ [rec0]
  match parent with
  | some p =>
    (⟨listModify cliques p (fun P => { P with children := P.children ++ [id] }),
      t.root, nodes⟩, id)
  | none => (⟨cliques, some id, nodes⟩, id)

/-- `BayesTree::addToCliqueFront(bayesTree, conditional, clique)`
(`BayesTree-inl.h:194-217`): index the conditional's frontal key to the
clique and rebuild the clique's conditional as
`FromKeys(key :: old keys, nrFrontals + 1)`. -/
def addToCliqueFront (t : BayesTree) (c : Cond) (cid : ℕ) : BayesTree :=
  let nodes := (nodesResize t.nodes (c.key + 1)).set c.key (some cid)
  ⟨listModify t.cliques cid
      (fun C => { C with keys := c.key :: C.keys, nrFrontals := C.nrFrontals + 1 }),
    t.root, nodes⟩

/-- The static `BayesTree::insert(bayesTree, conditional)`
(`BayesTree-inl.h:372-417`).  `none` models the source's undefined/asserting
executions: a parentless conditional when a root already exists
(`assert(!root_)` in `addClique`), or a lowest-ordered parent key with no
clique in the index (null `shared_ptr` dereference). -/
def insert (t : BayesTree) (c : Cond) : Option BayesTree :=
  match c.parents with
  | [] =>
    match t.root with
    | some _ => none
    | none => some (addClique1 t c none).1
  | _ :: _ =>
    let parentRepresentative := findParentClique c.parents
    match nodesGet t parentRepresentative with
    | none => none
    | some pid =>
      match t.cliques.get? pid with
      | none => none
      | some C =>
        if C.keys.length = c.parents.length then some (addToCliqueFront t c pid)
        else some (addClique1 t c (some pid)).1

/-- The `BayesTree<IndexConditional>` constructor from a Bayes net
(`BayesTree-inl.h:283-289`): insert the conditionals one at a time, iterating
the net in reverse (root first). -/
def bayesTreeOfBayesNet (bn : List Cond) : Option BayesTree :=
  bn.reverse.foldlM insert emptyBayesTree

/-- C1 counterexample: insert a root conditional on key 1, then a conditional
on key 0 with parent set `P = [1]`.  The parent clique's separator is empty,
so its size differs from `|P| = 1`, and the claim then requires a new clique;
but the code compares the clique's total key count (1) with `|P|` and merges,
leaving a single clique with frontals `[0, 1]`. -/
theorem insert_merge_size_counterexample :
    insert emptyBayesTree ⟨1, []⟩ =
      some ⟨[⟨[1], 1, none, []⟩], some 0, [none, some 0]⟩ ∧
    ((⟨[1], 1, none, []⟩ : CliqueRec).separator.length ≠ ([1] : List ℕ).length) ∧
    insert ⟨[⟨[1], 1, none, []⟩], some 0, [none, some 0]⟩ ⟨0, [1]⟩ =
      some ⟨[⟨[0, 1], 2, none, []⟩], some 0, [some 0, some 0]⟩ ∧
    (⟨[⟨[0, 1], 2, none, []⟩], some 0, [some 0, some 0]⟩ : BayesTree).cliques.length =
      (⟨[⟨[1], 1, none, []⟩], some 0, [none, some 0]⟩ : BayesTree).cliques.length := by
  refine ⟨?_, by decide, ?_, by decide⟩ <;> decide



theorem listModify_length {α : Type} (l : List α) (i : ℕ) (f : α → α) :
    (listModify l i f).length = l.length := by
  rw [listModify]
  cases h : l.get? i with
  | none => rfl
  | some a => simp

theorem listModify_get_self {α : Type} (l : List α) (i : ℕ) (f : α → α)
    (a : α) (h : l.get? i = some a) :
    (listModify l i f).get? i = some (f a) := by
  rw [listModify, h]
  have hlt : i < l.length := (List.get?_eq_some.mp h).fst
  exact List.get?_set_eq_of_lt _ hlt

theorem listModify_get_other {α : Type} (l : List α) (i j : ℕ) (f : α → α)
    (h : i ≠ j) : (listModify l i f).get? j = l.get? j := by
  rw [listModify]
  cases hg : l.get? i with
  | none => rfl
  | some a => exact List.get?_set_ne _ _ h

theorem nodesResize_length (nd : List (Option ℕ)) (sz : ℕ) :
    sz ≤ (nodesResize nd sz).length := by
  rw [nodesResize]
  by_cases h : nd.length < sz
  · rw [if_pos h]
    simp
    omega
  · rw [if_neg h]
    omega

theorem nodesResize_getD (nd : List (Option ℕ)) (sz k : ℕ) :
    (nodesResize nd sz).getD k none = nd.getD k none := by
  rw [nodesResize]
  by_cases h : nd.length < sz
  · rw [if_pos h]
    rw [List.getD_eq_getElem?_getD, List.getD_eq_getElem?_getD, List.getElem?_append]
    rcases Nat.lt_or_ge k nd.length with hk | hk
    · rw [if_pos hk]
    · rw [if_neg (Nat.not_lt.mpr hk), List.getElem?_replicate, List.getElem?_eq_none hk]
      by_cases h2 : k - nd.length < sz - nd.length
      · rw [if_pos h2]
        rfl
      · rw [if_neg h2]
  · rw [if_neg h]

theorem setGetD_self (l : List (Option ℕ)) (i : ℕ) (v : Option ℕ)
    (h : i < l.length) : (l.set i v).getD i none = v := by
  rw [List.getD_eq_getElem?_getD, ← List.get?_eq_getElem?, List.get?_set_eq_of_lt v h]
  rfl

theorem setGetD_other (l : List (Option ℕ)) (i j : ℕ) (v : Option ℕ)
    (h : i ≠ j) : (l.set i v).getD j none = l.getD j none := by
  rw [List.getD_eq_getElem?_getD, List.getD_eq_getElem?_getD,
    ← List.get?_eq_getElem?, ← List.get?_eq_getElem?, List.get?_set_ne _ _ h]

/-- C1 amended: for a conditional with non-empty parent set `P`, `insert`
uses the clique indexed by the lowest-ordered key of `P` as parent clique;
if that clique's *total variable set* (frontals plus separator) has exactly
the size of `P`, the conditional's frontal key is added to that clique's
frontal set and no new clique is created; otherwise a new clique holding
exactly the conditional is created as the last child of that clique.  In
both cases the variable index maps the conditional's frontal key to the
updated clique. -/
theorem foldl_min_mem (ps : List ℕ) : ∀ p : ℕ,
    ps.foldl Nat.min p = p ∨ ps.foldl Nat.min p ∈ ps := by
  induction ps with
  | nil => intro p; exact Or.inl rfl
  | cons q qs ih =>
    intro p
    rcases ih (Nat.min p q) with h | h
    · rcases Nat.le_total p q with hle | hle
      · have he : Nat.min p q = p := by
          rw [show Nat.min p q = min p q from rfl]
          omega
        exact Or.inl (by rw [List.foldl_cons, h, he])
      · have he : Nat.min p q = q := by
          rw [show Nat.min p q = min p q from rfl]
          omega
        refine Or.inr ?_
        rw [List.foldl_cons, h, he]
        exact List.mem_cons_self _ _
    · exact Or.inr (List.mem_cons_of_mem _ (by rw [List.foldl_cons]; exact h))

theorem foldl_min_le (ps : List ℕ) : ∀ p : ℕ,
    (∀ y ∈ ps, ps.foldl Nat.min p ≤ y) ∧ ps.foldl Nat.min p ≤ p := by
  induction ps with
  | nil =>
    intro p
    exact ⟨fun y hy => absurd hy (List.not_mem_nil y), le_refl _⟩
  | cons q qs ih =>
    intro p
    obtain ⟨ih1, ih2⟩ := ih (Nat.min p q)
    rw [List.foldl_cons]
    refine ⟨?_, le_trans ih2 (Nat.min_le_left _ _)⟩
    intro y hy
    rcases List.mem_cons.mp hy with rfl | hy
    · exact le_trans ih2 (Nat.min_le_right _ _)
    · exact ih1 y hy

theorem insert_parent_clique_spec (t : BayesTree) (c : Cond) (pid : ℕ)
    (C : CliqueRec) (hne : c.parents ≠ [])
    (hlookup : nodesGet t (findParentClique c.parents) = some pid)
    (hC : t.cliques.get? pid = some C) :
    (findParentClique c.parents ∈ c.parents ∧
      ∀ p ∈ c.parents, findParentClique c.parents ≤ p) ∧
    (C.keys.length = c.parents.length →
      insert t c = some (addToCliqueFront t c pid) ∧
      (addToCliqueFront t c pid).cliques.length = t.cliques.length ∧
      (addToCliqueFront t c pid).cliques.get? pid =
        some ⟨c.key :: C.keys, C.nrFrontals + 1, C.parent, C.children⟩ ∧
      nodesGet (addToCliqueFront t c pid) c.key = some pid ∧
      (addToCliqueFront t c pid).root = t.root) ∧
    (C.keys.length ≠ c.parents.length →
      insert t c = some (addClique1 t c (some pid)).1 ∧
      (addClique1 t c (some pid)).1.cliques.length = t.cliques.length + 1 ∧
      (addClique1 t c (some pid)).1.cliques.get? t.cliques.length =
        some ⟨c.key :: c.parents, 1, some pid, []⟩ ∧
      (addClique1 t c (some pid)).1.cliques.get? pid =
        some { C with children := C.children ++ [t.cliques.length] } ∧
      nodesGet (addClique1 t c (some pid)).1 c.key = some t.cliques.length ∧
      (addClique1 t c (some pid)).1.root = t.root) := by
  have hpid_lt : pid < t.cliques.length := (List.get?_eq_some.mp hC).fst
  refine ⟨?_, ?_, ?_⟩
  · cases hp : c.parents with
    | nil => exact absurd hp hne
    | cons p ps =>
      rw [findParentClique]
      constructor
      · rcases foldl_min_mem ps p with h | h
        · rw [h]
          exact List.mem_cons_self _ _
        · exact List.mem_cons_of_mem _ h
      · intro x hx
        rcases List.mem_cons.mp hx with rfl | hx
        · exact (foldl_min_le ps x).2
        · exact (foldl_min_le ps p).1 x hx
  · intro hsz
    have hins : insert t c = some (addToCliqueFront t c pid) := by
      obtain ⟨k, P⟩ := c
      simp only at hne hlookup hsz ⊢
      cases P with
      | nil => exact absurd rfl hne
      | cons p ps =>
        rw [insert]
        simp only [hlookup, hC]
        rw [if_pos hsz]
    refine ⟨hins, ?_, ?_, ?_, rfl⟩
    · show (listModify t.cliques pid _).length = t.cliques.length
      exact listModify_length _ _ _
    · show (listModify t.cliques pid _).get? pid = _
      rw [listModify_get_self _ _ _ C hC]
    · show ((nodesResize t.nodes (c.key + 1)).set c.key (some pid)).getD c.key none = _
      rw [setGetD_self]
      exact Nat.lt_of_lt_of_le (Nat.lt_succ_self _) (nodesResize_length _ _)
  · intro hsz
    have hins : insert t c = some (addClique1 t c (some pid)).1 := by
      obtain ⟨k, P⟩ := c
      simp only at hne hlookup hsz ⊢
      cases P with
      | nil => exact absurd rfl hne
      | cons p ps =>
        rw [insert]
        simp only [hlookup, hC]
        rw [if_neg hsz]
    have hid_get : (t.cliques ++
        [(⟨c.key :: c.parents, 1, some pid, []⟩ : CliqueRec)]).get? t.cliques.length =
        some ⟨c.key :: c.parents, 1, some pid, []⟩ := by
      simp [List.getElem?_append_right]
    refine ⟨hins, ?_, ?_, ?_, ?_, rfl⟩
    · show (listModify (t.cliques ++ [_]) pid _).length = t.cliques.length + 1
      rw [listModify_length]
      simp
    · show (listModify (t.cliques ++ [_]) pid _).get? t.cliques.length = _
      rw [listModify_get_other _ _ _ _ (Nat.ne_of_lt hpid_lt)]
      exact hid_get
    · show (listModify (t.cliques ++ [_]) pid _).get? pid = _
      rw [listModify_get_self _ _ _ C (by rw [List.get?_append hpid_lt]; exact hC)]
    · show ((nodesResize t.nodes (c.key + 1)).set c.key
          (some t.cliques.length)).getD c.key none = _
      rw [setGetD_self]
      exact Nat.lt_of_lt_of_le (Nat.lt_succ_self _) (nodesResize_length _ _)

theorem insert_parent_clique_spec_witness :
    ((findParentClique [1] ∈ ([1] : List ℕ) ∧
      ∀ p ∈ ([1] : List ℕ), findParentClique [1] ≤ p) ∧
    ((⟨[1], 1, none, []⟩ : CliqueRec).keys.length = ([1] : List ℕ).length →
      insert ⟨[⟨[1], 1, none, []⟩], some 0, [none, some 0]⟩ ⟨0, [1]⟩ =
        some (addToCliqueFront ⟨[⟨[1], 1, none, []⟩], some 0, [none, some 0]⟩ ⟨0, [1]⟩ 0) ∧
      (addToCliqueFront ⟨[⟨[1], 1, none, []⟩], some 0, [none, some 0]⟩ ⟨0, [1]⟩ 0).cliques.length =
        (⟨[⟨[1], 1, none, []⟩], some 0, [none, some 0]⟩ : BayesTree).cliques.length ∧
      (addToCliqueFront ⟨[⟨[1], 1, none, []⟩], some 0, [none, some 0]⟩ ⟨0, [1]⟩ 0).cliques.get? 0 =
        some ⟨0 :: [1], 1 + 1, none, []⟩ ∧
      nodesGet (addToCliqueFront ⟨[⟨[1], 1, none, []⟩], some 0, [none, some 0]⟩ ⟨0, [1]⟩ 0) 0 =
        some 0 ∧
      (addToCliqueFront ⟨[⟨[1], 1, none, []⟩], some 0, [none, some 0]⟩ ⟨0, [1]⟩ 0).root =
        (⟨[⟨[1], 1, none, []⟩], some 0, [none, some 0]⟩ : BayesTree).root) ∧
    ((⟨[1], 1, none, []⟩ : CliqueRec).keys.length ≠ ([1] : List ℕ).length →
      insert ⟨[⟨[1], 1, none, []⟩], some 0, [none, some 0]⟩ ⟨0, [1]⟩ =
        some (addClique1 ⟨[⟨[1], 1, none, []⟩], some 0, [none, some 0]⟩ ⟨0, [1]⟩ (some 0)).1 ∧
      (addClique1 ⟨[⟨[1], 1, none, []⟩], some 0, [none, some 0]⟩ ⟨0, [1]⟩ (some 0)).1.cliques.length =
        (⟨[⟨[1], 1, none, []⟩], some 0, [none, some 0]⟩ : BayesTree).cliques.length + 1 ∧
      (addClique1 ⟨[⟨[1], 1, none, []⟩], some 0, [none, some 0]⟩ ⟨0, [1]⟩ (some 0)).1.cliques.get?
          (⟨[⟨[1], 1, none, []⟩], some 0, [none, some 0]⟩ : BayesTree).cliques.length =
        some ⟨0 :: [1], 1, some 0, []⟩ ∧
      (addClique1 ⟨[⟨[1], 1, none, []⟩], some 0, [none, some 0]⟩ ⟨0, [1]⟩ (some 0)).1.cliques.get? 0 =
        some { (⟨[1], 1, none, []⟩ : CliqueRec) with children :=
          (⟨[1], 1, none, []⟩ : CliqueRec).children ++
            [(⟨[⟨[1], 1, none, []⟩], some 0, [none, some 0]⟩ : BayesTree).cliques.length] } ∧
      nodesGet (addClique1 ⟨[⟨[1], 1, none, []⟩], some 0, [none, some 0]⟩ ⟨0, [1]⟩ (some 0)).1 0 =
        some (⟨[⟨[1], 1, none, []⟩], some 0, [none, some 0]⟩ : BayesTree).cliques.length ∧
      (addClique1 ⟨[⟨[1], 1, none, []⟩], some 0, [none, some 0]⟩ ⟨0, [1]⟩ (some 0)).1.root =
        (⟨[⟨[1], 1, none, []⟩], some 0, [none, some 0]⟩ : BayesTree).root)) :=
  insert_parent_clique_spec ⟨[⟨[1], 1, none, []⟩], some 0, [none, some 0]⟩ ⟨0, [1]⟩ 0
    ⟨[1], 1, none, []⟩ (by decide) (by decide) (by decide)

/-! ## Incremental path removal (`BayesTree-inl.h:220-235, 541-563`) -/

/-- The conditional of the clique with arena id `i`, as the pair
`(keys, nrFrontals)` (the payload `removePath` pushes into the Bayes net). -/
def condAt (t : BayesTree) (i : ℕ) : List ℕ × ℕ :=
  ((t.cliques.get? i).map (fun C => (C.keys, C.nrFrontals))).getD ([], 0)

/-- The children list of the clique with arena id `i`. -/
def childrenAt (t : BayesTree) (i : ℕ) : List ℕ :=
  ((t.cliques.get? i).map CliqueRec.children).getD []

/-- `BayesTree::removeClique(clique)` (`BayesTree-inl.h:220-235`): reset the
root if the clique has no parent (`isRoot()`), else detach it from its
parent's child list; clear the parent reference of each of its children; and
reset the `nodes_` index entry of every key of its conditional. -/
def removeClique (t : BayesTree) (cid : ℕ) : BayesTree :=
  match t.cliques.get? cid with
  | none => t
  | some C =>
    let t1 : BayesTree :=
      match C.parent with
      | none => { t with root := none }
      | some p =>
        { t with cliques := (listModify t.cliques p
            (fun P => { P with children := P.children.filter (· ≠ cid) })) }
    let cliques2 := C.children.foldl
      (fun cl ch => listModify cl ch (fun D => { D with parent := none })) t1.cliques
    let nodes2 := C.keys.foldl (fun nd k => nd.set k none) t1.nodes
    ⟨cliques2, t1.root, nodes2⟩

/-- `BayesTree::removePath(clique, bn, orphans)` (`BayesTree-inl.h:541-563`),
with the recursion along the parent chain driven by explicit fuel (the chain
of a well-formed tree is shorter than the arena, so the fuel never runs out
in a reachable state).  A null clique (`none`) leaves everything unchanged.
Otherwise: drop the clique from the orphan list, remove it from the tree,
recurse on its parent, splice its children onto the front of the orphan
list, and append its conditional to the output Bayes net. -/
def removePathF (fuel : ℕ) (t : BayesTree) (bn : List (List ℕ × ℕ))
    (orphans : List ℕ) (oc : Option ℕ) :
    BayesTree × List (List ℕ × ℕ) × List ℕ :=
  match fuel, oc with
  | _, none => (t, bn, orphans)
  | 0, some _ => (t, bn, orphans)
  | fuel + 1, some cid =>
    match t.cliques.get? cid with
    | none => (t, bn, orphans)
    | some C =>
      let orphans1 := orphans.filter (· ≠ cid)
      let t1 := removeClique t cid
      let r2 := removePathF fuel t1 bn orphans1 C.parent
      let t2 := r2.1
      let orphans3 := childrenAt t2 cid ++ r2.2.2
      let t3 : BayesTree :=
        { t2 with cliques := listModify t2.cliques cid (fun D => { D with children := [] }) }
      (t3, r2.2.1 ++ [condAt t2 cid], orphans3)

/-- `removePath` with the fuel any well-formed tree needs. -/
def removePath (t : BayesTree) (bn : List (List ℕ × ℕ)) (orphans : List ℕ)
    (oc : Option ℕ) : BayesTree × List (List ℕ × ℕ) × List ℕ :=
  removePathF (t.cliques.length + 1) t bn orphans oc

/-- The ids of a clique and its ancestors up to the root, bottom first. -/
def ancestorPathF (t : BayesTree) : ℕ → Option ℕ → List ℕ
  | _, none => []
  | 0, some _ => []
  | fuel + 1, some cid =>
    match t.cliques.get? cid with
    | none => []
    | some C => cid :: ancestorPathF t fuel C.parent

/-- The children collected into the orphan list while removing an ancestor
path, front-spliced in path order: all children of the first clique, then
each ancestor's children except the path member below it. -/
def spliceList (t : BayesTree) : List ℕ → List ℕ
  | [] => []
  | c0 :: rest => childrenAt t c0 ++ spliceAux t c0 rest
where spliceAux (t : BayesTree) : ℕ → List ℕ → List ℕ
  | _, [] => []
  | prev, c :: rest => (childrenAt t c).filter (· ≠ prev) ++ spliceAux t c rest

/-- Parent references point strictly downward in allocation order and at
existing cliques (true of every tree the insert operations build). -/
def parentsDecreasing (t : BayesTree) : Prop :=
  ∀ i C p, t.cliques.get? i = some C → C.parent = some p →
    p < i ∧ ∃ P, t.cliques.get? p = some P

/-- Weak child/parent consistency: every listed child exists and refers back
to its parent, unless already orphaned.  (Holds for insert-built trees and is
preserved by removal, which only orphans children.) -/
def childrenConsistentW (t : BayesTree) : Prop :=
  ∀ i C, t.cliques.get? i = some C → ∀ ch ∈ C.children,
    ∃ D, t.cliques.get? ch = some D ∧ (D.parent = some i ∨ D.parent = none)

theorem foldl_set_none_getD (ks : List ℕ) :
    ∀ (nd : List (Option ℕ)) (k : ℕ),
    (ks.foldl (fun n k' => n.set k' none) nd).getD k none =
      if k ∈ ks then none else nd.getD k none := by
  induction ks with
  | nil =>
    intro nd k
    simp
  | cons k0 rest ih =>
    intro nd k
    rw [List.foldl_cons, ih]
    by_cases hk : k ∈ rest
    · rw [if_pos hk, if_pos (List.mem_cons_of_mem _ hk)]
    · rw [if_neg hk]
      by_cases hk0 : k = k0
      · subst hk0
        rw [if_pos (List.mem_cons_self _ _)]
        rcases Nat.lt_or_ge k nd.length with h | h
        · rw [setGetD_self _ _ _ h]
        · rw [List.set_eq_of_length_le (by omega)]
          rw [List.getD_eq_getElem?_getD, List.getElem?_eq_none h]
          rfl
      · rw [if_neg (by simp [hk, hk0]), setGetD_other _ _ _ _ (Ne.symm hk0)]

theorem listModify_map_eq {α β : Type} (cl : List α) (j : ℕ) (f : α → α)
    (g : α → β) (h : ∀ a, g (f a) = g a) :
    ∀ i, ((listModify cl j f).get? i).map g = (cl.get? i).map g := by
  intro i
  by_cases hij : j = i
  · subst hij
    cases hg : cl.get? j with
    | none =>
      simp only [listModify, hg]
    | some a =>
      rw [listModify_get_self _ _ _ _ hg]
      simp [h a]
  · rw [listModify_get_other _ _ _ _ hij]

theorem foldl_parent_none_keysMap (chs : List ℕ) :
    ∀ (cl : List CliqueRec) (i : ℕ),
    ((chs.foldl (fun c ch => listModify c ch
        (fun D => { D with parent := none })) cl).get? i).map
      (fun D => (D.keys, D.nrFrontals, D.children)) =
    (cl.get? i).map (fun D => (D.keys, D.nrFrontals, D.children)) := by
  induction chs with
  | nil => intro cl i; rfl
  | cons ch rest ih =>
    intro cl i
    rw [List.foldl_cons, ih, listModify_map_eq]
    intro a
    rfl

theorem foldl_parent_none_get (chs : List ℕ) :
    ∀ (cl : List CliqueRec) (i : ℕ), i ∉ chs →
    (chs.foldl (fun c ch => listModify c ch
        (fun D => { D with parent := none })) cl).get? i = cl.get? i := by
  induction chs with
  | nil => intro cl i _; rfl
  | cons ch rest ih =>
    intro cl i hi
    have hne : ch ≠ i := by
      intro h
      subst h
      exact hi (List.mem_cons_self _ _)
    rw [List.foldl_cons, ih _ _ (fun h => hi (List.mem_cons_of_mem _ h)),
      listModify_get_other _ _ _ _ hne]

theorem foldl_parent_none_get_mem (chs : List ℕ) :
    ∀ (cl : List CliqueRec) (i : ℕ) (D : CliqueRec), i ∈ chs →
    cl.get? i = some D →
    (chs.foldl (fun c ch => listModify c ch
        (fun D => { D with parent := none })) cl).get? i =
      some { D with parent := none } := by
  induction chs with
  | nil =>
    intro cl i D hi
    exact absurd hi (List.not_mem_nil i)
  | cons ch rest ih =>
    intro cl i D hi hD
    rw [List.foldl_cons]
    by_cases hir : i ∈ rest
    · by_cases hch : ch = i
      · subst hch
        exact ih _ _ { D with parent := none } hir
          (listModify_get_self _ _ _ _ hD)
      · exact ih _ _ D hir (by rw [listModify_get_other _ _ _ _ hch]; exact hD)
    · have hch : ch = i := by
        rcases List.mem_cons.mp hi with h | h
        · exact h.symm
        · exact absurd h hir
      subst hch
      rw [foldl_parent_none_get _ _ _ hir, listModify_get_self _ _ _ _ hD]

/-- What removal can do to a clique record: conditionals are untouched, the
parent reference can only be cleared, and children can only be dropped. -/
def weakenRel (D C0 : CliqueRec) : Prop :=
  D.keys = C0.keys ∧ D.nrFrontals = C0.nrFrontals ∧
  (D.parent = C0.parent ∨ D.parent = none) ∧
  (∀ ch ∈ D.children, ch ∈ C0.children)

theorem weakenRel_refl (D : CliqueRec) : weakenRel D D :=
  ⟨rfl, rfl, Or.inl rfl, fun _ h => h⟩

theorem weakenRel_trans {A B C : CliqueRec} (h1 : weakenRel A B)
    (h2 : weakenRel B C) : weakenRel A C := by
  obtain ⟨k1, n1, p1, c1⟩ := h1
  obtain ⟨k2, n2, p2, c2⟩ := h2
  refine ⟨k1.trans k2, n1.trans n2, ?_, fun ch hch => c2 ch (c1 ch hch)⟩
  rcases p1 with p1 | p1
  · rw [p1]
    exact p2
  · exact Or.inr p1

theorem listModify_weaken {cl : List CliqueRec} {j : ℕ} {f : CliqueRec → CliqueRec}
    (hf : ∀ a, weakenRel (f a) a) :
    ∀ i D, (listModify cl j f).get? i = some D →
    ∃ D0, cl.get? i = some D0 ∧ weakenRel D D0 := by
  intro i D hD
  by_cases hij : j = i
  · subst hij
    cases hg : cl.get? j with
    | none =>
      simp only [listModify, hg] at hD
      exact absurd hD (by simp)
    | some a =>
      rw [listModify_get_self _ _ _ _ hg] at hD
      obtain rfl : f a = D := by injection hD
      exact ⟨a, rfl, hf a⟩
  · rw [listModify_get_other _ _ _ _ hij] at hD
    exact ⟨D, hD, weakenRel_refl D⟩

theorem foldl_modify_weaken {f : CliqueRec → CliqueRec}
    (hf : ∀ a, weakenRel (f a) a) (chs : List ℕ) :
    ∀ (cl : List CliqueRec) i D,
    (chs.foldl (fun c ch => listModify c ch f) cl).get? i = some D →
    ∃ D0, cl.get? i = some D0 ∧ weakenRel D D0 := by
  induction chs with
  | nil =>
    intro cl i D hD
    exact ⟨D, hD, weakenRel_refl D⟩
  | cons ch rest ih =>
    intro cl i D hD
    rw [List.foldl_cons] at hD
    obtain ⟨D1, hD1, hw1⟩ := ih _ _ _ hD
    obtain ⟨D0, hD0, hw0⟩ := listModify_weaken hf _ _ hD1
    exact ⟨D0, hD0, weakenRel_trans hw1 hw0⟩

/-- Every clique record surviving `removeClique` is a weakening of its
original: same conditional, possibly cleared parent, possibly fewer
children. -/
theorem removeClique_get_weaken (t : BayesTree) (cid : ℕ) :
    ∀ i D, (removeClique t cid).cliques.get? i = some D →
    ∃ C0, t.cliques.get? i = some C0 ∧ weakenRel D C0 := by
  intro i D hD
  cases hC : t.cliques.get? cid with
  | none =>
    have hrc : removeClique t cid = t := by
      simp only [removeClique, hC]
    rw [hrc] at hD
    exact ⟨D, hD, weakenRel_refl D⟩
  | some C =>
    have hrc : (removeClique t cid).cliques =
        C.children.foldl (fun c ch => listModify c ch
          (fun E => { E with parent := none }))
          (match C.parent with
           | none => t.cliques
           | some p => listModify t.cliques p
               (fun P => { P with children := P.children.filter (· ≠ cid) })) := by
      simp only [removeClique, hC]
      cases C.parent <;> rfl
    rw [hrc] at hD
    obtain ⟨D1, hD1, hw1⟩ := foldl_modify_weaken
      (f := fun E => { E with parent := none })
      (fun a => ⟨rfl, rfl, Or.inr rfl, fun _ h => h⟩) C.children _ _ _ hD
    cases hp : C.parent with
    | none =>
      rw [hp] at hD1
      exact ⟨D1, hD1, hw1⟩
    | some p =>
      rw [hp] at hD1
      obtain ⟨D0, hD0, hw0⟩ := listModify_weaken
        (f := fun P => { P with children := P.children.filter (· ≠ cid) })
        (fun a => ⟨rfl, rfl, Or.inl rfl, fun ch hch => (List.mem_filter.mp hch).1⟩)
        _ _ hD1
      exact ⟨D0, hD0, weakenRel_trans hw1 hw0⟩

theorem foldl_modify_map_eq {α β : Type} (chs : List ℕ) (f : α → α)
    (g : α → β) (h : ∀ a, g (f a) = g a) :
    ∀ (cl : List α) (i : ℕ),
    ((chs.foldl (fun c ch => listModify c ch f) cl).get? i).map g =
      (cl.get? i).map g := by
  induction chs with
  | nil => intro cl i; rfl
  | cons ch rest ih =>
    intro cl i
    rw [List.foldl_cons, ih, listModify_map_eq _ _ _ _ h]

theorem foldl_modify_length {α : Type} (chs : List ℕ) (f : α → α) :
    ∀ (cl : List α),
    (chs.foldl (fun c ch => listModify c ch f) cl).length = cl.length := by
  induction chs with
  | nil => intro cl; rfl
  | cons ch rest ih =>
    intro cl
    rw [List.foldl_cons, ih, listModify_length]

/-- The clique arena produced by `removeClique` on a valid id. -/
theorem removeClique_cliques_eq (t : BayesTree) (cid : ℕ) (C : CliqueRec)
    (hC : t.cliques.get? cid = some C) :
    (removeClique t cid).cliques =
      C.children.foldl (fun c ch => listModify c ch
        (fun E => { E with parent := none }))
        (match C.parent with
         | none => t.cliques
         | some p => listModify t.cliques p
             (fun P => { P with children := P.children.filter (· ≠ cid) })) := by
  simp only [removeClique, hC]
  cases C.parent <;> rfl

theorem removeClique_nodes_eq (t : BayesTree) (cid : ℕ) (C : CliqueRec)
    (hC : t.cliques.get? cid = some C) :
    (removeClique t cid).nodes =
      C.keys.foldl (fun nd k => nd.set k none) t.nodes := by
  simp only [removeClique, hC]
  cases C.parent <;> rfl

theorem removeClique_root (t : BayesTree) (cid : ℕ) (C : CliqueRec)
    (hC : t.cliques.get? cid = some C) :
    (removeClique t cid).root =
      match C.parent with | none => none | some _ => t.root := by
  simp only [removeClique, hC]
  cases C.parent <;> rfl

theorem removeClique_length (t : BayesTree) (cid : ℕ) :
    (removeClique t cid).cliques.length = t.cliques.length := by
  cases hC : t.cliques.get? cid with
  | none => simp only [removeClique, hC]
  | some C =>
    rw [removeClique_cliques_eq t cid C hC, foldl_modify_length]
    cases C.parent with
    | none => rfl
    | some p => exact listModify_length _ _ _

theorem removeClique_condAt (t : BayesTree) (cid : ℕ) :
    ∀ i, ((removeClique t cid).cliques.get? i).map
        (fun D => (D.keys, D.nrFrontals)) =
      (t.cliques.get? i).map (fun D => (D.keys, D.nrFrontals)) := by
  intro i
  cases hC : t.cliques.get? cid with
  | none => simp only [removeClique, hC]
  | some C =>
    rw [removeClique_cliques_eq t cid C hC,
      foldl_modify_map_eq C.children (fun (E : CliqueRec) => { E with parent := none })
        (fun (D : CliqueRec) => (D.keys, D.nrFrontals)) (fun a => rfl)]
    cases C.parent with
    | none => rfl
    | some p =>
      exact listModify_map_eq t.cliques p
        (fun P => { P with children := P.children.filter (· ≠ cid) })
        (fun (D : CliqueRec) => (D.keys, D.nrFrontals)) (fun a => rfl) i

theorem removeClique_childrenMap_other (t : BayesTree) (cid : ℕ) (C : CliqueRec)
    (hC : t.cliques.get? cid = some C) (i : ℕ) (hip : C.parent ≠ some i) :
    ((removeClique t cid).cliques.get? i).map (fun D => D.children) =
      (t.cliques.get? i).map (fun D => D.children) := by
  rw [removeClique_cliques_eq t cid C hC,
    foldl_modify_map_eq C.children (fun (E : CliqueRec) => { E with parent := none })
      (fun (D : CliqueRec) => D.children) (fun a => rfl)]
  cases hp : C.parent with
  | none => rfl
  | some p =>
    have hpi : p ≠ i := fun h => hip (by rw [hp, h])
    rw [listModify_get_other _ _ _ _ hpi]

theorem removeClique_childrenMap_parent (t : BayesTree) (cid : ℕ) (C : CliqueRec)
    (hC : t.cliques.get? cid = some C) (p : ℕ) (hp : C.parent = some p) :
    ((removeClique t cid).cliques.get? p).map (fun D => D.children) =
      (t.cliques.get? p).map (fun D => D.children.filter (· ≠ cid)) := by
  rw [removeClique_cliques_eq t cid C hC,
    foldl_modify_map_eq C.children (fun (E : CliqueRec) => { E with parent := none })
      (fun (D : CliqueRec) => D.children) (fun a => rfl), hp]
  cases hg : t.cliques.get? p with
  | none =>
    simp only [listModify, hg]
    rfl
  | some P =>
    rw [listModify_get_self _ _ _ _ hg]
    rfl

/-- `removeClique` preserves the parent references of every clique below the
removed one (given the well-formedness invariants), so the ancestor chain
above the removed clique is unchanged. -/
theorem removeClique_parentMap_lt (t : BayesTree) (cid : ℕ) (C : CliqueRec)
    (hdec : parentsDecreasing t) (hcons : childrenConsistentW t)
    (hC : t.cliques.get? cid = some C) :
    ∀ a, a < cid → ((removeClique t cid).cliques.get? a).map (fun D => D.parent) =
      (t.cliques.get? a).map (fun D => D.parent) := by
  intro a ha
  rw [removeClique_cliques_eq t cid C hC]
  have hstage1 : ((match C.parent with
      | none => t.cliques
      | some p => listModify t.cliques p
          (fun P => { P with children := P.children.filter (· ≠ cid) })).get? a).map
        (fun (D : CliqueRec) => D.parent) =
      (t.cliques.get? a).map (fun (D : CliqueRec) => D.parent) := by
    cases C.parent with
    | none => rfl
    | some p =>
      exact listModify_map_eq t.cliques p
        (fun P => { P with children := P.children.filter (· ≠ cid) })
        (fun (D : CliqueRec) => D.parent) (fun x => rfl) a
  by_cases hmem : a ∈ C.children
  · obtain ⟨E, hE, hEp⟩ := hcons cid C hC a hmem
    have hpnone : E.parent = none := by
      rcases hEp with h | h
      · exfalso
        obtain ⟨hlt, -⟩ := hdec a E cid hE h
        omega
      · exact h
    have : ∃ E', (match C.parent with
        | none => t.cliques
        | some p => listModify t.cliques p
            (fun P => { P with children := P.children.filter (· ≠ cid) })).get? a =
          some E' ∧ E'.parent = none := by
      have := hstage1
      rw [hE] at this
      cases hg : (match C.parent with
          | none => t.cliques
          | some p => listModify t.cliques p
              (fun P => { P with children := P.children.filter (· ≠ cid) })).get? a with
      | none =>
        rw [hg] at this
        exact absurd this (by simp)
      | some E' =>
        rw [hg] at this
        simp only [Option.map_some'] at this
        refine ⟨E', rfl, ?_⟩
        have h3 := Option.some.inj this
        rw [h3]
        exact hpnone
    obtain ⟨E', hE', hE'p⟩ := this
    rw [foldl_parent_none_get_mem _ _ _ _ hmem hE', hE]
    simp only [Option.map_some']
    rw [hpnone]
  · rw [foldl_parent_none_get _ _ _ hmem]
    exact hstage1

theorem get_isSome_of_lt {α : Type} {l : List α} {i : ℕ} (h : i < l.length) :
    ∃ a, l.get? i = some a := by
  cases hg : l.get? i with
  | none =>
    rw [List.get?_eq_getElem?] at hg
    rw [List.getElem?_eq_none_iff] at hg
    omega
  | some a => exact ⟨a, rfl⟩

theorem removeClique_parentsDecreasing (t : BayesTree) (cid : ℕ)
    (hdec : parentsDecreasing t) : parentsDecreasing (removeClique t cid) := by
  intro i D p hD hp
  obtain ⟨C0, hC0, hw⟩ := removeClique_get_weaken t cid i D hD
  obtain ⟨-, -, hpw, -⟩ := hw
  have hC0p : C0.parent = some p := by
    rcases hpw with h | h
    · rw [← h, hp]
    · rw [h] at hp
      exact absurd hp (by simp)
  obtain ⟨hlt, P, hP⟩ := hdec i C0 p hC0 hC0p
  refine ⟨hlt, ?_⟩
  have hplen : p < (removeClique t cid).cliques.length := by
    rw [removeClique_length]
    exact (List.get?_eq_some.mp hP).fst
  exact get_isSome_of_lt hplen

theorem removeClique_childrenConsistentW (t : BayesTree) (cid : ℕ)
    (hcons : childrenConsistentW t) :
    childrenConsistentW (removeClique t cid) := by
  intro i D hD ch hch
  obtain ⟨C0, hC0, hw⟩ := removeClique_get_weaken t cid i D hD
  obtain ⟨-, -, -, hcw⟩ := hw
  obtain ⟨E, hE, hEp⟩ := hcons i C0 hC0 ch (hcw ch hch)
  have hchlen : ch < (removeClique t cid).cliques.length := by
    rw [removeClique_length]
    exact (List.get?_eq_some.mp hE).fst
  obtain ⟨E2, hE2⟩ := get_isSome_of_lt hchlen
  obtain ⟨E0, hE0, hw2⟩ := removeClique_get_weaken t cid ch E2 hE2
  obtain rfl : E0 = E := by
    rw [hE0] at hE
    exact Option.some.inj hE
  refine ⟨E2, hE2, ?_⟩
  obtain ⟨-, -, hpw2, -⟩ := hw2
  rcases hpw2 with h | h
  · rw [h]
    exact hEp
  · exact Or.inr h

/-- The ancestor chain strictly above the removed clique is unchanged by the
removal. -/
theorem ancestorPathF_removeClique (t : BayesTree) (cid : ℕ) (C : CliqueRec)
    (hdec : parentsDecreasing t) (hcons : childrenConsistentW t)
    (hC : t.cliques.get? cid = some C) :
    ∀ (fuel : ℕ) (oc : Option ℕ), (∀ a, oc = some a → a < cid) →
    ancestorPathF (removeClique t cid) fuel oc = ancestorPathF t fuel oc := by
  intro fuel
  induction fuel with
  | zero =>
    intro oc hlt
    cases oc <;> rfl
  | succ fuel ih =>
    intro oc hlt
    cases oc with
    | none => rfl
    | some a =>
      have ha : a < cid := hlt a rfl
      have hmap := removeClique_parentMap_lt t cid C hdec hcons hC a ha
      rw [ancestorPathF, ancestorPathF]
      cases hg : t.cliques.get? a with
      | none =>
        rw [hg] at hmap
        cases hg2 : (removeClique t cid).cliques.get? a with
        | none => rfl
        | some D =>
          rw [hg2] at hmap
          exact absurd hmap (by simp)
      | some E =>
        rw [hg] at hmap
        cases hg2 : (removeClique t cid).cliques.get? a with
        | none =>
          rw [hg2] at hmap
          exact absurd hmap (by simp)
        | some D =>
          rw [hg2] at hmap
          simp only [Option.map_some'] at hmap
          have hpar : D.parent = E.parent := Option.some.inj hmap
          show a :: ancestorPathF (removeClique t cid) fuel D.parent =
            a :: ancestorPathF t fuel E.parent
          rw [hpar]
          congr 1
          apply ih
          intro b hb
          obtain ⟨hlt2, -⟩ := hdec a E b hg hb
          omega

theorem removeClique_nodesGet (t : BayesTree) (cid : ℕ) (C : CliqueRec)
    (hC : t.cliques.get? cid = some C) :
    ∀ k, nodesGet (removeClique t cid) k =
      if k ∈ C.keys then none else nodesGet t k := by
  intro k
  show (removeClique t cid).nodes.getD k none = _
  rw [removeClique_nodes_eq t cid C hC, foldl_set_none_getD]
  rfl

theorem condAt_congr {t t' : BayesTree} (i : ℕ)
    (h : (t'.cliques.get? i).map (fun D => (D.keys, D.nrFrontals)) =
      (t.cliques.get? i).map (fun D => (D.keys, D.nrFrontals))) :
    condAt t' i = condAt t i := by
  rw [condAt, condAt, h]

theorem childrenAt_congr {t t' : BayesTree} (i : ℕ)
    (h : (t'.cliques.get? i).map (fun D => D.children) =
      (t.cliques.get? i).map (fun D => D.children)) :
    childrenAt t' i = childrenAt t i := by
  rw [childrenAt, childrenAt, h]

theorem removeClique_condAt' (t : BayesTree) (cid : ℕ) :
    ∀ i, condAt (removeClique t cid) i = condAt t i :=
  fun i => condAt_congr i (removeClique_condAt t cid i)

theorem spliceAux_congr {t t' : BayesTree} (l : List ℕ)
    (h : ∀ c ∈ l, childrenAt t' c = childrenAt t c) :
    ∀ prev, spliceList.spliceAux t' prev l = spliceList.spliceAux t prev l := by
  induction l with
  | nil => intro prev; rfl
  | cons c rest ih =>
    intro prev
    rw [spliceList.spliceAux, spliceList.spliceAux,
      h c (List.mem_cons_self _ _),
      ih (fun x hx => h x (List.mem_cons_of_mem _ hx))]

theorem ancestorPathF_le (t : BayesTree) (hdec : parentsDecreasing t) :
    ∀ (fuel : ℕ) (a : ℕ), ∀ x ∈ ancestorPathF t fuel (some a), x ≤ a := by
  intro fuel
  induction fuel with
  | zero =>
    intro a x hx
    simp [ancestorPathF] at hx
  | succ fuel ih =>
    intro a x hx
    rw [ancestorPathF] at hx
    cases hg : t.cliques.get? a with
    | none =>
      rw [hg] at hx
      exact absurd hx (List.not_mem_nil x)
    | some E =>
      rw [hg] at hx
      rcases List.mem_cons.mp hx with rfl | hx
      · exact le_refl x
      · cases hp : E.parent with
        | none =>
          rw [hp] at hx
          simp [ancestorPathF] at hx
        | some p =>
          rw [hp] at hx
          obtain ⟨hlt, -⟩ := hdec a E p hg hp
          exact le_trans (ih p x hx) (by omega)

theorem removePathF_none (fuel : ℕ) (t : BayesTree) (bn : List (List ℕ × ℕ))
    (orphans : List ℕ) : removePathF fuel t bn orphans none = (t, bn, orphans) := by
  cases fuel <;> rfl

theorem ancestorPathF_none (t : BayesTree) (fuel : ℕ) :
    ancestorPathF t fuel none = [] := by
  cases fuel <;> rfl

/-- Removing a clique turns the orphan splice of its ancestor path in the
modified tree into the splice of the same path in the original tree with the
removed clique dropped from its parent's children. -/
theorem spliceList_removeClique (t : BayesTree) (cid : ℕ) (C : CliqueRec)
    (hdec : parentsDecreasing t) (hC : t.cliques.get? cid = some C)
    (p : ℕ) (hp : C.parent = some p) (hplt : p < cid) :
    ∀ fuel, 0 < fuel →
    spliceList (removeClique t cid) (ancestorPathF t fuel (some p)) =
      spliceList.spliceAux t cid (ancestorPathF t fuel (some p)) := by
  intro fuel hfuel
  obtain ⟨f, rfl⟩ : ∃ f, fuel = f + 1 := ⟨fuel - 1, by omega⟩
  obtain ⟨P, hP⟩ : ∃ P, t.cliques.get? p = some P := by
    obtain ⟨-, P, hP⟩ := hdec cid C p hC hp
    exact ⟨P, hP⟩
  rw [ancestorPathF, hP]
  show spliceList (removeClique t cid) (p :: ancestorPathF t f P.parent) =
    spliceList.spliceAux t cid (p :: ancestorPathF t f P.parent)
  rw [spliceList, spliceList.spliceAux]
  have h1 : childrenAt (removeClique t cid) p =
      (childrenAt t p).filter (· ≠ cid) := by
    rw [childrenAt, childrenAt,
      removeClique_childrenMap_parent t cid C hC p hp, hP]
    rfl
  have h2 : spliceList.spliceAux (removeClique t cid) p
      (ancestorPathF t f P.parent) =
      spliceList.spliceAux t p (ancestorPathF t f P.parent) := by
    apply spliceAux_congr
    intro c hc
    have hcp : c ≠ p := by
      cases hq : P.parent with
      | none =>
        rw [hq, ancestorPathF_none] at hc
        exact absurd hc (List.not_mem_nil c)
      | some q =>
        rw [hq] at hc
        have hcq : c ≤ q := ancestorPathF_le t hdec f q c hc
        obtain ⟨hqp, -⟩ := hdec p P q hP hq
        omega
    apply childrenAt_congr
    apply removeClique_childrenMap_other t cid C hC
    rw [hp]
    intro hcontr
    exact hcp (Option.some.inj hcontr).symm
  rw [h1, h2]

/-- The full effect of `removePath` on a valid clique of a well-formed tree:
conditionals of the clique and its ancestors are appended to the Bayes net
root-first; their children (less the path members) are front-spliced onto
the orphan list, from which the path members themselves are dropped; the
root is reset and the index entries of every removed conditional's keys are
cleared; and all other cliques keep their conditional and children. -/
theorem removePathF_spec_main (fuel : ℕ) :
    ∀ (t : BayesTree) (bn : List (List ℕ × ℕ)) (orphans : List ℕ)
      (cid : ℕ) (C : CliqueRec),
    parentsDecreasing t → childrenConsistentW t → cid < fuel →
    t.cliques.get? cid = some C →
    (removePathF fuel t bn orphans (some cid)).2.1 =
      bn ++ ((ancestorPathF t fuel (some cid)).reverse.map (condAt t)) ∧
    (removePathF fuel t bn orphans (some cid)).2.2 =
      spliceList t (ancestorPathF t fuel (some cid)) ++
        orphans.filter (fun x => decide (x ∉ ancestorPathF t fuel (some cid))) ∧
    (removePathF fuel t bn orphans (some cid)).1.root = none ∧
    (∀ i ∈ ancestorPathF t fuel (some cid), ∀ k ∈ (condAt t i).1,
      nodesGet (removePathF fuel t bn orphans (some cid)).1 k = none) ∧
    (∀ k, nodesGet t k = none →
      nodesGet (removePathF fuel t bn orphans (some cid)).1 k = none) ∧
    ((removePathF fuel t bn orphans (some cid)).1.cliques.length =
      t.cliques.length) ∧
    (∀ i, ((removePathF fuel t bn orphans (some cid)).1.cliques.get? i).map
        (fun D => (D.keys, D.nrFrontals)) =
      (t.cliques.get? i).map (fun D => (D.keys, D.nrFrontals))) ∧
    (∀ i, i ∉ ancestorPathF t fuel (some cid) →
      ((removePathF fuel t bn orphans (some cid)).1.cliques.get? i).map
        (fun D => D.children) =
      (t.cliques.get? i).map (fun D => D.children)) := by
  induction fuel with
  | zero =>
    intro t bn orphans cid C _ _ hfuel _
    omega
  | succ fuel ih =>
    intro t bn orphans cid C hdec hcons hfuel hC
    -- unfold one step of removePathF and of the ancestor path
    have hpath : ancestorPathF t (fuel + 1) (some cid) =
        cid :: ancestorPathF t fuel C.parent := by
      rw [ancestorPathF, hC]
    have hstep : removePathF (fuel + 1) t bn orphans (some cid) =
        (let t1 := removeClique t cid
         let r2 := removePathF fuel t1 bn (orphans.filter (· ≠ cid)) C.parent
         ({ r2.1 with cliques := (listModify r2.1.cliques cid
              (fun D => { D with children := [] })) },
          r2.2.1 ++ [condAt r2.1 cid], childrenAt r2.1 cid ++ r2.2.2)) := by
      simp only [removePathF, hC]
    rw [hstep, hpath]
    simp only
    set t1 := removeClique t cid with ht1
    set r2 := removePathF fuel t1 bn (orphans.filter (· ≠ cid)) C.parent with hr2
    -- facts established level by level
    have hdec1 : parentsDecreasing t1 := removeClique_parentsDecreasing t cid hdec
    have hcons1 : childrenConsistentW t1 := removeClique_childrenConsistentW t cid hcons
    have hpathinv : ancestorPathF t1 fuel C.parent = ancestorPathF t fuel C.parent := by
      apply ancestorPathF_removeClique t cid C hdec hcons hC
      intro a haeq
      exact (hdec cid C a hC haeq).1
    have hcondAt1 : ∀ i, condAt t1 i = condAt t i := removeClique_condAt' t cid
    have hT3nodes : ∀ k, nodesGet { r2.1 with cliques := (listModify r2.1.cliques cid
        (fun D => { D with children := [] })) } k = nodesGet r2.1 k := fun k => rfl
    have hCcond : condAt t cid = (C.keys, C.nrFrontals) := by
      rw [condAt, hC]
      rfl
    have hfun : condAt t1 = condAt t := funext hcondAt1
    cases hp : C.parent with
    | none =>
      have hr2eq : r2 = (t1, bn, orphans.filter (· ≠ cid)) := by
        rw [hr2, hp, removePathF_none]
      have hpathnil : ancestorPathF t fuel none = [] := ancestorPathF_none t fuel
      rw [hpathnil, hr2eq]
      simp only
      have hch1 : childrenAt t1 cid = childrenAt t cid := by
        apply childrenAt_congr
        apply removeClique_childrenMap_other t cid C hC
        rw [hp]
        simp
      refine ⟨?_, ?_, ?_, ?_, ?_, ?_, ?_, ?_⟩
      · rw [hcondAt1 cid]
        simp
      · rw [hch1, spliceList, spliceList.spliceAux, List.append_nil]
        simp only [List.mem_singleton]
      · show t1.root = none
        rw [ht1, removeClique_root t cid C hC, hp]
      · intro i hi k hk
        have hi' : i = cid := by simpa using hi
        rw [hi', hCcond] at hk
        show nodesGet t1 k = none
        rw [ht1, removeClique_nodesGet t cid C hC, if_pos hk]
      · intro k hk
        show nodesGet t1 k = none
        rw [ht1, removeClique_nodesGet t cid C hC]
        by_cases hmem : k ∈ C.keys
        · rw [if_pos hmem]
        · rw [if_neg hmem]
          exact hk
      · show (listModify t1.cliques cid
            (fun D => { D with children := ([] : List ℕ) })).length = t.cliques.length
        rw [listModify_length, ht1, removeClique_length]
      · intro i
        show ((listModify t1.cliques cid
            (fun D => { D with children := ([] : List ℕ) })).get? i).map
            (fun D => (D.keys, D.nrFrontals)) =
          (t.cliques.get? i).map (fun D => (D.keys, D.nrFrontals))
        rw [listModify_map_eq t1.cliques cid
          (fun D => { D with children := ([] : List ℕ) })
          (fun (D : CliqueRec) => (D.keys, D.nrFrontals)) (fun a => rfl) i, ht1]
        exact removeClique_condAt t cid i
      · intro i hi
        have hne : cid ≠ i := fun h => hi (by rw [← h]; exact List.mem_cons_self _ _)
        show ((listModify t1.cliques cid
            (fun D => { D with children := ([] : List ℕ) })).get? i).map
            (fun D => D.children) =
          (t.cliques.get? i).map (fun D => D.children)
        rw [listModify_get_other _ _ _ _ hne, ht1]
        exact removeClique_childrenMap_other t cid C hC i (by rw [hp]; simp)
    | some p =>
      rw [hp] at hr2 hpathinv
      obtain ⟨hplt, P1, hP1t⟩ := hdec cid C p hC hp
      have hplen : p < t1.cliques.length := by
        rw [ht1, removeClique_length]
        by_contra hcon
        rw [List.get?_eq_none.mpr (by omega)] at hP1t
        exact Option.noConfusion hP1t
      obtain ⟨P1', hP1'⟩ := get_isSome_of_lt hplen
      have hfp : p < fuel := by omega
      obtain ⟨ih1, ih2, ih3, ih4, ih5, ih6, ih7, ih8⟩ :=
        ih t1 bn (orphans.filter (· ≠ cid)) p P1' hdec1 hcons1 hfp hP1'
      rw [← hr2] at ih1 ih2 ih3 ih4 ih5 ih6 ih7 ih8
      rw [hpathinv] at ih1 ih2 ih4 ih8
      rw [hfun] at ih1 ih4
      have hfuelpos : 0 < fuel := by omega
      have hpmem : p ∈ ancestorPathF t fuel (some p) := by
        obtain ⟨f, hf⟩ : ∃ f, fuel = f + 1 := ⟨fuel - 1, by omega⟩
        rw [hf, ancestorPathF, hP1t]
        exact List.mem_cons_self _ _
      have hcidnot : cid ∉ ancestorPathF t fuel (some p) := by
        intro hmem
        have := ancestorPathF_le t hdec fuel p cid hmem
        omega
      have hpnecid : C.parent ≠ some cid := by
        rw [hp]
        intro h
        have := Option.some.inj h
        omega
      have hcondcid : condAt r2.1 cid = condAt t cid :=
        condAt_congr cid ((ih7 cid).trans (ht1 ▸ removeClique_condAt t cid cid))
      have hchcid : childrenAt r2.1 cid = childrenAt t cid := by
        apply childrenAt_congr
        rw [ih8 cid hcidnot, ht1]
        exact removeClique_childrenMap_other t cid C hC cid hpnecid
      refine ⟨?_, ?_, ?_, ?_, ?_, ?_, ?_, ?_⟩
      · rw [ih1, hcondcid, List.reverse_cons, List.map_append, List.append_assoc]
        rfl
      · rw [ih2, hchcid]
        have hsplice : spliceList t1 (ancestorPathF t fuel (some p)) =
            spliceList.spliceAux t cid (ancestorPathF t fuel (some p)) := by
          rw [ht1]
          exact spliceList_removeClique t cid C hdec hC p hp hplt fuel hfuelpos
        have hfilter : (orphans.filter (· ≠ cid)).filter
            (fun x => decide (x ∉ ancestorPathF t fuel (some p))) =
            orphans.filter
              (fun x => decide (x ∉ cid :: ancestorPathF t fuel (some p))) := by
          rw [List.filter_filter]
          apply List.filter_congr
          intro x _
          simp [List.mem_cons, not_or, Bool.and_comm]
        rw [hsplice, hfilter, spliceList]
        exact (List.append_assoc _ _ _).symm
      · exact ih3
      · intro i hi k hk
        show nodesGet r2.1 k = none
        rcases List.mem_cons.mp hi with hicid | hi
        · apply ih5
          rw [ht1, removeClique_nodesGet t cid C hC]
          rw [hicid, hCcond] at hk
          rw [if_pos hk]
        · exact ih4 i hi k hk
      · intro k hk
        show nodesGet r2.1 k = none
        apply ih5
        rw [ht1, removeClique_nodesGet t cid C hC]
        by_cases hmem : k ∈ C.keys
        · rw [if_pos hmem]
        · rw [if_neg hmem]
          exact hk
      · show (listModify r2.1.cliques cid
            (fun D => { D with children := ([] : List ℕ) })).length = t.cliques.length
        rw [listModify_length, ih6, ht1, removeClique_length]
      · intro i
        show ((listModify r2.1.cliques cid
            (fun D => { D with children := ([] : List ℕ) })).get? i).map
            (fun D => (D.keys, D.nrFrontals)) =
          (t.cliques.get? i).map (fun D => (D.keys, D.nrFrontals))
        rw [listModify_map_eq r2.1.cliques cid
          (fun D => { D with children := ([] : List ℕ) })
          (fun (D : CliqueRec) => (D.keys, D.nrFrontals)) (fun a => rfl) i,
          ih7 i, ht1]
        exact removeClique_condAt t cid i
      · intro i hi
        have hine : cid ≠ i := fun h => hi (by rw [← h]; exact List.mem_cons_self _ _)
        have hinp : i ∉ ancestorPathF t fuel (some p) :=
          fun h => hi (List.mem_cons_of_mem _ h)
        have hpnei : C.parent ≠ some i := by
          rw [hp]
          intro h
          obtain rfl : p = i := Option.some.inj h
          exact hinp hpmem
        show ((listModify r2.1.cliques cid
            (fun D => { D with children := ([] : List ℕ) })).get? i).map
            (fun D => D.children) =
          (t.cliques.get? i).map (fun D => D.children)
        rw [listModify_get_other _ _ _ _ hine, ih8 i hinp, ht1]
        exact removeClique_childrenMap_other t cid C hC i hpnei

/-- `ancestorPathF` with the fuel `removePath` uses: the removed clique and
its ancestors up to the root, in removal order (the clique itself first). -/
def ancestorPath (t : BayesTree) (oc : Option ℕ) : List ℕ :=
  ancestorPathF t (t.cliques.length + 1) oc

/-- Executable check of `parentsDecreasing`. -/
def parentsDecreasingB (t : BayesTree) : Bool :=
  (List.range t.cliques.length).all fun i =>
    match t.cliques.get? i with
    | none => true
    | some C =>
      match C.parent with
      | none => true
      | some p => decide (p < i) && (t.cliques.get? p).isSome

theorem parentsDecreasing_of_B (t : BayesTree)
    (h : parentsDecreasingB t = true) : parentsDecreasing t := by
  intro i C p hget hp
  have hi : i < t.cliques.length := by
    by_contra hcon
    rw [List.get?_eq_none.mpr (by omega)] at hget
    exact Option.noConfusion hget
  have h2 := List.all_eq_true.mp h i (List.mem_range.mpr hi)
  simp only [hget, hp] at h2
  rw [Bool.and_eq_true, decide_eq_true_eq] at h2
  obtain ⟨hlt, hsome⟩ := h2
  refine ⟨hlt, ?_⟩
  cases hg : t.cliques.get? p with
  | none =>
    rw [hg] at hsome
    exact absurd hsome (by simp)
  | some P => exact ⟨P, rfl⟩

/-- Executable check of `childrenConsistentW`. -/
def childrenConsistentB (t : BayesTree) : Bool :=
  (List.range t.cliques.length).all fun i =>
    match t.cliques.get? i with
    | none => true
    | some C => C.children.all fun ch =>
        match t.cliques.get? ch with
        | none => false
        | some D => decide (D.parent = some i) || decide (D.parent = none)

theorem childrenConsistentW_of_B (t : BayesTree)
    (h : childrenConsistentB t = true) : childrenConsistentW t := by
  intro i C hget ch hch
  have hi : i < t.cliques.length := by
    by_contra hcon
    rw [List.get?_eq_none.mpr (by omega)] at hget
    exact Option.noConfusion hget
  have h2 := List.all_eq_true.mp h i (List.mem_range.mpr hi)
  simp only [hget] at h2
  have h3 := List.all_eq_true.mp h2 ch hch
  cases hg : t.cliques.get? ch with
  | none =>
    simp only [hg] at h3
    exact Bool.noConfusion h3
  | some D =>
    simp only [hg] at h3
    rw [Bool.or_eq_true, decide_eq_true_eq, decide_eq_true_eq] at h3
    exact ⟨D, rfl, h3⟩

/-- A two-clique chain: the root clique over key 0 with the child clique over
keys 1 (frontal) and 0 (separator). -/
def removePathExampleTree : BayesTree :=
  ⟨[⟨[0], 1, none, [1]⟩, ⟨[1, 0], 1, some 0, []⟩], some 0, [some 0, some 1]⟩

/-- C2 counterexample: `removePath` removes the cliques bottom-up (the path is
`[1, 0]`, the target clique first), but appends their conditionals to the
Bayes net as the recursion unwinds, so the net receives the root conditional
first — the reverse of removal order, not removal order. -/
theorem removePath_order_counterexample :
    ancestorPath removePathExampleTree (some 1) = [1, 0] ∧
    (removePath removePathExampleTree [] [] (some 1)).2.1 =
      [condAt removePathExampleTree 0, condAt removePathExampleTree 1] ∧
    (removePath removePathExampleTree [] [] (some 1)).2.1 ≠
      List.map (condAt removePathExampleTree) [1, 0] := by
  decide

/-- C2 (amended): `removePath` on a null clique leaves the tree, the Bayes
net and the orphan list unchanged; on a valid clique of a well-formed tree it
strips the clique and every ancestor up to and including the root, appending
each removed clique's conditional to the Bayes net as the recursion unwinds
(root first — the reverse of removal order), front-splicing the children of
each removed clique (minus the path members themselves) onto the orphan list
after dropping the path members from it, clearing the root reference and the
index entries of every removed conditional's keys, while every remaining
clique keeps its conditional and children, so the orphaned subtrees stay
intact. -/
theorem removePath_spec (t : BayesTree) (bn : List (List ℕ × ℕ))
    (orphans : List ℕ) (cid : ℕ) (C : CliqueRec)
    (hdec : parentsDecreasing t) (hcons : childrenConsistentW t)
    (hC : t.cliques.get? cid = some C) :
    removePath t bn orphans none = (t, bn, orphans) ∧
    (removePath t bn orphans (some cid)).2.1 =
      bn ++ ((ancestorPath t (some cid)).reverse.map (condAt t)) ∧
    (removePath t bn orphans (some cid)).2.2 =
      spliceList t (ancestorPath t (some cid)) ++
        orphans.filter (fun x => decide (x ∉ ancestorPath t (some cid))) ∧
    (removePath t bn orphans (some cid)).1.root = none ∧
    (∀ i ∈ ancestorPath t (some cid), ∀ k ∈ (condAt t i).1,
      nodesGet (removePath t bn orphans (some cid)).1 k = none) ∧
    ((removePath t bn orphans (some cid)).1.cliques.length =
      t.cliques.length) ∧
    (∀ i, ((removePath t bn orphans (some cid)).1.cliques.get? i).map
        (fun D => (D.keys, D.nrFrontals)) =
      (t.cliques.get? i).map (fun D => (D.keys, D.nrFrontals))) ∧
    (∀ i, i ∉ ancestorPath t (some cid) →
      ((removePath t bn orphans (some cid)).1.cliques.get? i).map
        (fun D => D.children) =
      (t.cliques.get? i).map (fun D => D.children)) := by
  have hfuel : cid < t.cliques.length + 1 := by
    by_contra hcon
    rw [List.get?_eq_none.mpr (by omega)] at hC
    exact Option.noConfusion hC
  obtain ⟨h1, h2, h3, h4, h5, h6, h7, h8⟩ :=
    removePathF_spec_main (t.cliques.length + 1) t bn orphans cid C hdec hcons
      hfuel hC
  exact ⟨removePathF_none _ t bn orphans, h1, h2, h3, h4, h6, h7, h8⟩

/-- Witness for `removePath_spec` on the two-clique example tree. -/
theorem removePath_spec_witness :
    (parentsDecreasing removePathExampleTree ∧
     childrenConsistentW removePathExampleTree) ∧
    ((removePath removePathExampleTree [] [] (some 1)).2.1 =
      [] ++ ((ancestorPath removePathExampleTree (some 1)).reverse.map
        (condAt removePathExampleTree)) ∧
     (removePath removePathExampleTree [] [] (some 1)).1.root = none) := by
  have hdec := parentsDecreasing_of_B removePathExampleTree (by decide)
  have hcons := childrenConsistentW_of_B removePathExampleTree (by decide)
  have h := removePath_spec removePathExampleTree [] [] 1 ⟨[1, 0], 1, some 0, []⟩
    hdec hcons (by decide)
  exact ⟨⟨hdec, hcons⟩, h.2.1, h.2.2.2.1⟩

/-! ## Batch construction versus incremental insertion (`BayesTree-inl.h:283-289`) -/

/-- `BayesTree::equals` (`BayesTree-inl.h:345-360`): equal clique counts, and
for every variable key the two `nodes_` entries are both null or reference
cliques whose conditionals are equal (`check_sharedCliques` with the cliques
compared through their stored conditional). -/
def btEquals (t1 t2 : BayesTree) : Bool :=
  decide (t1.cliques.length = t2.cliques.length) &&
  (List.range t1.nodes.length).all fun k =>
    match nodesGet t1 k, nodesGet t2 k with
    | none, none => true
    | some c1, some c2 => decide (condAt t1 c1 = condAt t2 c2)
    | _, _ => false

theorem btEquals_refl (t : BayesTree) : btEquals t t = true := by
  rw [btEquals, Bool.and_eq_true]
  refine ⟨by simp, ?_⟩
  rw [List.all_eq_true]
  intro k _
  cases nodesGet t k with
  | none => rfl
  | some c => simp

/-- Following the spec's words: the tree built incrementally from `t0` by
inserting the listed conditionals one at a time, each step a successful
`insert`. -/
inductive BuildsFrom : BayesTree → List Cond → BayesTree → Prop
  | nil (t : BayesTree) : BuildsFrom t [] t
  | cons {t t1 t2 : BayesTree} {c : Cond} {cs : List Cond} :
      insert t c = some t1 → BuildsFrom t1 cs t2 → BuildsFrom t (c :: cs) t2

/-- The one-at-a-time relation agrees with the `foldlM` of `insert`. -/
theorem foldlM_insert_iff (cs : List Cond) :
    ∀ (t0 t : BayesTree), cs.foldlM insert t0 = some t ↔ BuildsFrom t0 cs t := by
  induction cs with
  | nil =>
    intro t0 t
    rw [List.foldlM_nil]
    constructor
    · intro h
      obtain rfl := Option.some.inj h
      exact BuildsFrom.nil t0
    · intro h
      cases h
      rfl
  | cons c cs ih =>
    intro t0 t
    rw [List.foldlM_cons]
    cases hins : insert t0 c with
    | none =>
      constructor
      · intro h
        rw [show ((none : Option BayesTree) >>= fun t1 => cs.foldlM insert t1) =
          none from rfl] at h
        exact Option.noConfusion h
      · intro h
        cases h with
        | cons h1 h2 =>
          rw [hins] at h1
          exact Option.noConfusion h1
    | some t1 =>
      constructor
      · intro h
        have h2 : cs.foldlM insert t1 = some t := by simpa using h
        exact BuildsFrom.cons hins ((ih t1 t).mp h2)
      · intro h
        cases h with
        | cons h1 h2 =>
          rw [hins] at h1
          obtain rfl := Option.some.inj h1
          simpa using (ih _ t).mpr h2

/-- The ASIA Bayes net of the constructor test (`testBayesTree.cpp:45-79`),
keys numbered in elimination order (X=0, T=1, S=2, E=3, L=4, B=5), listed in
elimination order: X|E, T|E,L, S|L,B, E|L,B, L|B, B. -/
def asiaBayesNet : List Cond :=
  [⟨0, [3]⟩, ⟨1, [3, 4]⟩, ⟨2, [4, 5]⟩, ⟨3, [4, 5]⟩, ⟨4, [5]⟩, ⟨5, []⟩]

/-- The four-clique tree the batch constructor builds from the ASIA net:
root clique E,L,B with children S:L,B and T:E,L and X:E. -/
def asiaTree : BayesTree :=
  ⟨[⟨[3, 4, 5], 3, none, [1, 2, 3]⟩, ⟨[2, 4, 5], 1, some 0, []⟩,
    ⟨[1, 3, 4], 1, some 0, []⟩, ⟨[0, 3], 1, some 0, []⟩],
   some 0,
   [some 3, some 2, some 1, some 0, some 0, some 0]⟩

/-- C3 counterexample: inserting the conditionals one at a time in
elimination order (the net's own order, first-eliminated first) cannot build
any tree — the very first conditional's parents are not yet represented, so
`insert` fails — while the one-pass constructor, which consumes the net in
reverse, builds the four-clique ASIA tree. -/
theorem bayesTree_elimination_order_counterexample :
    (∀ t, ¬ BuildsFrom emptyBayesTree asiaBayesNet t) ∧
    bayesTreeOfBayesNet asiaBayesNet = some asiaTree ∧
    asiaTree.cliques.length = 4 := by
  refine ⟨?_, by decide, by decide⟩
  intro t h
  cases h with
  | cons h1 h2 =>
    rw [show insert emptyBayesTree ⟨0, [3]⟩ = none from rfl] at h1
    exact Option.noConfusion h1

/-- C3 (amended): for every Bayes net, the tree built incrementally by
inserting its conditionals one at a time in reverse elimination order (the
last-eliminated, parentless conditional first) is exactly the tree the
one-pass constructor returns — the constructor iterates the net in reverse —
and the two results are also equal under the tree's structural `equals`.
Inserting in elimination order proper fails as soon as a conditional's
parents are absent (see the counterexample). -/
theorem bayesTree_incremental_eq_batch (bn : List Cond) (t t1 : BayesTree) :
    (bayesTreeOfBayesNet bn = some t ↔ BuildsFrom emptyBayesTree bn.reverse t) ∧
    (BuildsFrom emptyBayesTree bn.reverse t → bayesTreeOfBayesNet bn = some t1 →
      t1 = t ∧ btEquals t1 t = true) := by
  have hiff := foldlM_insert_iff bn.reverse emptyBayesTree t
  refine ⟨hiff, fun hb hc => ?_⟩
  have ht : bayesTreeOfBayesNet bn = some t := hiff.mpr hb
  rw [ht] at hc
  obtain rfl := Option.some.inj hc
  exact ⟨rfl, btEquals_refl t⟩

end Gtsam
